import Mathlib

set_option maxRecDepth 100000

/-!
Verification of the koota entity/trait storage core against its
natural-language specification.

The definitions below are shallow embeddings of the TypeScript sources:

* `tzcnt32`, `popcount32`, `BitSet` and the `bitSetAnd` / `bitSetAndMany` /
  `bitSetAndNot` traversals embed the two-level hierarchical bitfield
  (`src/unnamed/part_001`).
* `ensureEntityMaskSize` embeds the entity-mask growth helper
  (`src/unnamed/part_000`).
* `QueryEntitySet` embeds `src/packages/core/src/utils/query-entity-set.ts`.
* `checkQuery` embeds `src/packages/core/src/query/utils/check-query.ts`.
* `destroyEntity` embeds the cascade loop of
  `src/packages/core/src/entity/entity.ts`; its collaborators (relation
  lookups, entity index) are not part of the provided sources and are
  modelled from the specification where noted.

JavaScript 32-bit words are modelled as `Nat` values; the `|0` / `>>>`
coercions of the source are bijections between the signed and unsigned views
of the same 32 bits, and every bitwise test used by the code (`& != 0`,
`& == mask`, `=== 0`) depends only on those bits, so `Nat.land` / `Nat.lor`
/ `Nat.testBit` on values `< 2^32` is a faithful model.
-/

/-- tzcnt32 (src/unnamed/part_001): index of the lowest set bit (0-31), or 32
if the 32-bit word is zero.  The JS implementation computes this with
`31 - Math.clz32(v & -v)`; we model the documented contract directly:
`findIdx` over bit positions 0..31 returns the first set position and 32
(the list length) when the word is zero. -/
def tzcnt32 (v : Nat) : Nat :=
  (List.range 32).findIdx (fun i => v.testBit i)

/-- popcount32 (src/unnamed/part_001): number of set bits of a 32-bit word,
modelled by its contract (Hamming weight of the low 32 bits). -/
def popcount32 (v : Nat) : Nat :=
  ((List.range 32).filter (fun i => v.testBit i)).length

/-- The `while (newCapacity < minCapacity) newCapacity *= 2` loop shared by
`BitSet.grow`, `QueryEntitySet.grow` and `ensureEntityMaskSize`.  The fuel
argument makes the recursion structural; `growCapacity` supplies fuel
`minCap`, which is enough because doubling a positive capacity `minCap`
times overshoots `minCap` (`2^n > n`). -/
def growLoop : Nat → Nat → Nat → Nat
  | 0, cap, _ => cap
  | fuel + 1, cap, minCap => if cap < minCap then growLoop fuel (cap * 2) minCap else cap

/-- Capacity after the doubling loop, starting from `cap`, requested
minimum `minCap`. -/
def growCapacity (cap minCap : Nat) : Nat :=
  growLoop minCap cap minCap

/-- BitSet (src/unnamed/part_001): two-level hierarchical bitfield.
`bottom` and `top` are the `Uint32Array`s, `count` the stored population,
`capacity` the private capacity field. -/
structure BitSet where
  bottom : List Nat
  top : List Nat
  count : Nat
  capacity : Nat

/-- `new BitSet(capacity)`. -/
def mkBitSet (capacity : Nat) : BitSet :=
  { bottom := List.replicate ((capacity + 31) / 32) 0
    top := List.replicate (((capacity + 31) / 32 + 31) / 32) 0
    count := 0
    capacity := capacity }

/-- `BitSet.has`. -/
def BitSet.has (s : BitSet) (key : Nat) : Bool :=
  if s.capacity ≤ key then false
  else (s.bottom.getD (key / 32) 0).testBit (key % 32)

/-- `BitSet.grow` (private): double capacity until it covers `minCapacity`,
reallocate both levels zero-filled and copy the old words into the prefix. -/
def BitSet.grow (s : BitSet) (minCapacity : Nat) : BitSet :=
  let newCapacity := growCapacity s.capacity minCapacity
  let newBottomWords := (newCapacity + 31) / 32
  let newTopWords := (newBottomWords + 31) / 32
  { bottom := s.bottom ++ List.replicate (newBottomWords - s.bottom.length) 0
    top := s.top ++ List.replicate (newTopWords - s.top.length) 0
    count := s.count
    capacity := newCapacity }

/-- `BitSet.add`: returns the JS boolean result together with the new state. -/
def BitSet.add (s₀ : BitSet) (key : Nat) : Bool × BitSet :=
  let s := if s₀.capacity ≤ key then s₀.grow (key + 1) else s₀
  let wordIdx := key / 32
  let bit := 2 ^ (key % 32)
  if (s.bottom.getD wordIdx 0).testBit (key % 32) then (false, s)
  else
    (true,
      { bottom := s.bottom.set wordIdx ((s.bottom.getD wordIdx 0) ||| bit)
        top := s.top.set (wordIdx / 32) ((s.top.getD (wordIdx / 32) 0) ||| 2 ^ (wordIdx % 32))
        count := s.count + 1
        capacity := s.capacity })

/-- `BitSet.remove`.  `bottom[wordIdx] &= ~bit` on a `Uint32Array` clears the
single bit inside the 32-bit word: `~bit` as an unsigned 32-bit word is
`(2^32 - 1) ^^^ bit`. -/
def BitSet.remove (s : BitSet) (key : Nat) : Bool × BitSet :=
  if s.capacity ≤ key then (false, s)
  else
    let wordIdx := key / 32
    let bit := 2 ^ (key % 32)
    if ¬ (s.bottom.getD wordIdx 0).testBit (key % 32) then (false, s)
    else
      let newWord := (s.bottom.getD wordIdx 0) &&& ((2 ^ 32 - 1) ^^^ bit)
      let newTop :=
        if newWord = 0 then
          s.top.set (wordIdx / 32) ((s.top.getD (wordIdx / 32) 0) &&& ((2 ^ 32 - 1) ^^^ 2 ^ (wordIdx % 32)))
        else s.top
      (true,
        { bottom := s.bottom.set wordIdx newWord
          top := newTop
          count := s.count - 1
          capacity := s.capacity })

/-- `BitSet.clear`: `fill(0)` both levels, reset the count. -/
def BitSet.clear (s : BitSet) : BitSet :=
  { bottom := List.replicate s.bottom.length 0
    top := List.replicate s.top.length 0
    count := 0
    capacity := s.capacity }

/-- One `while (bits !== 0) { b = tzcnt32(bits); bits &= bits - 1; … }` loop,
collecting the visited bit indices.  The loop clears one set bit per
iteration, so it performs at most `w` steps; fuel `w + 1` makes the
recursion structural without changing the result. -/
def wordBitsGo : Nat → Nat → List Nat
  | 0, _ => []
  | fuel + 1, w => if w = 0 then [] else tzcnt32 w :: wordBitsGo fuel (w &&& (w - 1))

/-- Visited bit indices of one 32-bit word, in visit order. -/
def wordBits (w : Nat) : List Nat :=
  wordBitsGo (w + 1) w

/-- The doubly nested `top`/`bottom` traversal shared by `BitSet.forEach`,
`bitSetAnd`, `bitSetAndMany` and `bitSetAndNot` (src/unnamed/part_001):
iterate `ti` over the first `n` top words, walk the set bits of the top word
`tf ti`, and for each resulting bottom index `bi = (ti << 5) | topBit` walk
the set bits of the bottom word `bf bi`, visiting key
`(bi << 5) | bottomBit`.  Since `topBit`/`bottomBit` are `< 32`, the
`(x << 5) | b` computations equal `32 * x + b`. -/
def traverseBlocks (n : Nat) (tf bf : Nat → Nat) : List Nat :=
  (List.range n).flatMap (fun ti =>
    (wordBits (tf ti)).flatMap (fun topBit =>
      (wordBits (bf (32 * ti + topBit))).map (fun bottomBit =>
        32 * (32 * ti + topBit) + bottomBit)))

/-- `BitSet.forEach`, as the list of visited keys in visit order. -/
def forEachList (s : BitSet) : List Nat :=
  traverseBlocks s.top.length (fun ti => s.top.getD ti 0) (fun bi => s.bottom.getD bi 0)

/-- `bitSetAnd(a, b, fn)`, as the list of visited keys in visit order. -/
def bitSetAndList (a b : BitSet) : List Nat :=
  traverseBlocks (min a.top.length b.top.length)
    (fun ti => (a.top.getD ti 0) &&& (b.top.getD ti 0))
    (fun bi => (a.bottom.getD bi 0) &&& (b.bottom.getD bi 0))

/-- `bitSetAndNot(a, b, fn)`: iterates all of `a`'s top words, reads `b`'s
bottom word as `0` when `bottomIdx` is outside `b.bottom` (the
`bottomIdx < b.bottom.length ? … : 0` guard is `getD _ 0`), and visits the
bits of `aWord & ~bWord`. -/
def bitSetAndNotList (a b : BitSet) : List Nat :=
  traverseBlocks a.top.length
    (fun ti => a.top.getD ti 0)
    (fun bi => (a.bottom.getD bi 0) &&& ((b.bottom.getD bi 0) ^^^ (2 ^ 32 - 1)))

/-- `bitSetAndMany(sets, fn)`: special cases for 0/1/2 sets, then the n-way
word-AND loop over `Math.min` of the top lengths. -/
def bitSetAndManyList : List BitSet → List Nat
  | [] => []
  | [s] => forEachList s
  | [a, b] => bitSetAndList a b
  | s0 :: rest =>
    traverseBlocks (rest.foldl (fun m s => min m s.top.length) s0.top.length)
      (fun ti => rest.foldl (fun w s => w &&& s.top.getD ti 0) (s0.top.getD ti 0))
      (fun bi => rest.foldl (fun w s => w &&& s.bottom.getD bi 0) (s0.bottom.getD bi 0))

/-- Structural well-formedness maintained by the `BitSet` class: the array
lengths fixed by the constructor and `grow`, 32-bit words, the two-level
invariant (a top bit is 1 iff its bottom word is nonzero), and no bits at or
beyond `capacity`.  All quantifiers are bounded, so the predicate is
decidable on concrete states. -/
def BitSetWF (s : BitSet) : Prop :=
  s.bottom.length = (s.capacity + 31) / 32 ∧
  s.top.length = (s.bottom.length + 31) / 32 ∧
  (∀ w ∈ s.bottom, w < 2 ^ 32) ∧
  (∀ w ∈ s.top, w < 2 ^ 32) ∧
  (∀ bi < 32 * s.top.length,
    (s.top.getD (bi / 32) 0).testBit (bi % 32) = (s.bottom.getD bi 0 != 0)) ∧
  (∀ k, s.capacity ≤ k → k < 32 * s.bottom.length →
    (s.bottom.getD (k / 32) 0).testBit (k % 32) = false)

instance (s : BitSet) : Decidable (BitSetWF s) := by
  unfold BitSetWF; infer_instance

/-! ### Operation sequences and witness builders -/

/-- One add/remove call: `(true, k)` is `add k`, `(false, k)` is `remove k`. -/
def applyOps (ops : List (Bool × Nat)) (s : BitSet) : BitSet :=
  ops.foldl (fun s op => if op.1 then (s.add op.2).2 else (s.remove op.2).2) s

/-- Number of calls in `ops` that change key `k`'s membership when run from
current membership `mem`: an `add` of an absent key or a `remove` of a
present key flips the key, anything else leaves it unchanged. -/
def netFlips (k : Nat) : List (Bool × Nat) → Bool → Nat
  | [], _ => 0
  | (isAdd, j) :: rest, mem =>
    if j = k ∧ isAdd ≠ mem then 1 + netFlips k rest isAdd
    else netFlips k rest (if j = k then isAdd else mem)

/-- A BitSet populated by `add` calls, used for concrete scenarios. -/
def bitSetOfList (capacity : Nat) (keys : List Nat) : BitSet :=
  keys.foldl (fun s k => (s.add k).2) (mkBitSet capacity)

/-- Pairwise intersection reduced across the sets: all visits of the first
set, kept only when present in each further set. -/
def pairwiseReduced : List BitSet → List Nat
  | [] => []
  | s :: rest => rest.foldl (fun acc t => acc.filter (fun k => t.has k)) (forEachList s)

/-- First set of the spec's 3-way `andMany` scenario. -/
def exampleSetA : BitSet := bitSetOfList 4096 [1, 5, 1025]

/-- Second set of the spec's 3-way `andMany` scenario. -/
def exampleSetB : BitSet := bitSetOfList 4096 [5, 1025, 2000]

/-- Third set of the spec's 3-way `andMany` scenario. -/
def exampleSetC : BitSet := bitSetOfList 4096 [5, 1025]

/-! ### Entity mask growth (src/unnamed/part_000) -/

/-- `ensureEntityMaskSize`: grow one bank's mask row until it covers entity
id `eid` (`while (newLen <= eid) newLen *= 2`), copying the old words into
the prefix of a zero-filled array and storing the new row back. -/
def ensureEntityMaskSize (masks : List (List Nat)) (generationId eid : Nat) : List (List Nat) :=
  let arr := masks.getD generationId []
  if eid < arr.length then masks
  else
    let newLen := growCapacity arr.length (eid + 1)
    masks.set generationId (arr ++ List.replicate (newLen - arr.length) 0)

/-! ### Entity handles and QueryEntitySet
(src/packages/core/src/utils/query-entity-set.ts) -/

/-- Modelled from the spec: `pack-entity.ts` is not among the provided
sources.  Per spec §3/§6 an entity handle packs {world id, reuse
generation, slot index} into one integer and `getEntityId` extracts the
slot index; per the query-entity-set header comment the id is the low
20 bits of the 32-bit packed handle. -/
def getEntityId (entity : Nat) : Nat := entity % 2 ^ 20

/-- QueryEntitySet: hybrid BitSet + dense/sparse array pair.  JS arrays
read `undefined` outside their filled range, so `sparse` maps entity ids to
an optional dense index and `dense` is keyed by an optional index (the JS
expression `dense[sparse[eid]]` indexes with `undefined` when the sparse
slot is unset; property key `undefined` is a real key of the array object,
modelled by the `none` key). -/
structure QueryEntitySet where
  bottom : List Nat
  capacity : Nat
  dense : Option Nat → Option Nat
  sparse : Nat → Option Nat
  cursor : Nat

/-- `new QueryEntitySet(capacity)`. -/
def mkQES (capacity : Nat) : QueryEntitySet :=
  { bottom := List.replicate ((capacity + 31) / 32) 0
    capacity := capacity
    dense := fun _ => none
    sparse := fun _ => none
    cursor := 0 }

/-- `QueryEntitySet.has`: bit test plus exact stored-handle equality. -/
def QueryEntitySet.has (q : QueryEntitySet) (entity : Nat) : Bool :=
  let eid := getEntityId entity
  if q.capacity ≤ eid then false
  else if (q.bottom.getD (eid / 32) 0).testBit (eid % 32) = false then false
  else decide (q.dense (q.sparse eid) = some entity)

/-- `QueryEntitySet.grow` (private): same doubling policy as `BitSet.grow`,
single-level. -/
def QueryEntitySet.grow (q : QueryEntitySet) (minCapacity : Nat) : QueryEntitySet :=
  let newCapacity := growCapacity q.capacity minCapacity
  let newWords := (newCapacity + 31) / 32
  { q with
    bottom := q.bottom ++ List.replicate (newWords - q.bottom.length) 0
    capacity := newCapacity }

/-- `QueryEntitySet.add`. -/
def QueryEntitySet.add (q₀ : QueryEntitySet) (entity : Nat) : QueryEntitySet :=
  let eid := getEntityId entity
  let q := if q₀.capacity ≤ eid then q₀.grow (eid + 1) else q₀
  let wordIdx := eid / 32
  if (q.bottom.getD wordIdx 0).testBit (eid % 32) then
    -- bit set: exact match is a no-op, otherwise overwrite the stale
    -- (recycled entity id) dense entry in place
    if q.dense (q.sparse eid) = some entity then q
    else { q with dense := fun i => if i = q.sparse eid then some entity else q.dense i }
  else
    { q with
      bottom := q.bottom.set wordIdx ((q.bottom.getD wordIdx 0) ||| 2 ^ (eid % 32))
      sparse := fun j => if j = eid then some q.cursor else q.sparse j
      dense := fun i => if i = some q.cursor then some entity else q.dense i
      cursor := q.cursor + 1 }

/-- `QueryEntitySet.remove`: validates the exact handle, clears the bit and
swap-removes from the dense array.  When the swapped-in slot is the removed
slot itself (`index === cursor`) no swap happens.  If the dense read at the
decremented cursor were `undefined` the JS code would write
`sparse[getEntityId(undefined)] = sparse[NaN]`, a key never read back by
integer ids; that write is modelled as a no-op on `sparse`. -/
def QueryEntitySet.remove (q : QueryEntitySet) (entity : Nat) : QueryEntitySet :=
  let eid := getEntityId entity
  if q.capacity ≤ eid then q
  else if ¬ (q.bottom.getD (eid / 32) 0).testBit (eid % 32) then q
  else if ¬ (q.dense (q.sparse eid) = some entity) then q
  else
    let wordIdx := eid / 32
    let bottomNext := q.bottom.set wordIdx ((q.bottom.getD wordIdx 0) &&& ((2 ^ 32 - 1) ^^^ 2 ^ (eid % 32)))
    let index := q.sparse eid
    let cursorNext := q.cursor - 1
    if index = some cursorNext then
      { q with bottom := bottomNext, cursor := cursorNext }
    else
      let swapped := q.dense (some cursorNext)
      { q with
        bottom := bottomNext
        dense := fun i => if i = index then swapped else q.dense i
        sparse :=
          match swapped with
          | some s => fun j => if j = getEntityId s then index else q.sparse j
          | none => q.sparse
        cursor := cursorNext }

/-- `QueryEntitySet.size` (the `size` getter returns the cursor). -/
def QueryEntitySet.size (q : QueryEntitySet) : Nat := q.cursor

/-- Length/capacity relation established by the constructor and preserved
by `grow`, with the positive capacity the doubling loop needs. -/
def QESWF (q : QueryEntitySet) : Prop :=
  q.bottom.length = (q.capacity + 31) / 32 ∧ 0 < q.capacity

instance (q : QueryEntitySet) : Decidable (QESWF q) := by
  unfold QESWF; infer_instance

/-! ### checkQuery (src/packages/core/src/query/utils/check-query.ts) -/

/-- One `{required, forbidden, or}` bitmask triple of a compiled query. -/
structure StaticBitmask where
  required : Nat
  forbidden : Nat
  or : Nat
deriving DecidableEq

/-- The fields of a compiled `QueryInstance` read by `checkQuery`:
`staticBitmasks` (array slots may be absent, like JS sparse arrays), the
touched trait banks `generations`, and `traitInstances.all.length`. -/
structure QueryInstance where
  staticBitmasks : List (Option StaticBitmask)
  generations : List Nat
  traitInstancesAllLen : Nat

/-- The entity's mask word for one bank:
`genMasks ? (genMasks[eid] | 0) : 0` — an absent bank row or an ungrown row
reads as zero, never an error. -/
def maskWord (entityMasks : List (List Nat)) (generation eid : Nat) : Nat :=
  (entityMasks.getD generation []).getD eid 0

/-- The multi-bank loop of `checkQuery`, over bank indices `i`:
`if (!bitmask) continue;` skips a bank with no encoded triple;
`if (!forbidden && !required && !or) return false;` rejects on a present
but all-zero triple; then the three mask tests in source order. -/
def checkQueryLoop (entityMasks : List (List Nat)) (q : QueryInstance) (eid : Nat) :
    List Nat → Bool
  | [] => true
  | i :: rest =>
    match q.staticBitmasks.getD i none with
    | none => checkQueryLoop entityMasks q eid rest
    | some bm =>
      let entityMask := maskWord entityMasks (q.generations.getD i 0) eid
      if bm.forbidden = 0 ∧ bm.required = 0 ∧ bm.or = 0 then false
      else if bm.forbidden ≠ 0 ∧ entityMask &&& bm.forbidden ≠ 0 then false
      else if bm.required ≠ 0 ∧ entityMask &&& bm.required ≠ bm.required then false
      else if bm.or ≠ 0 ∧ entityMask &&& bm.or = 0 then false
      else checkQueryLoop entityMasks q eid rest

/-- `checkQuery`.  The result is `none` only when the single-bank fast path
reads `.required` of an absent `staticBitmasks[0]` (a JS `TypeError`);
every other path returns `some` of the boolean result. -/
def checkQuery (entityMasks : List (List Nat)) (q : QueryInstance) (entity : Nat) :
    Option Bool :=
  let eid := getEntityId entity
  if q.traitInstancesAllLen = 0 then some false
  else if q.generations.length = 1 then
    match q.staticBitmasks.getD 0 none with
    | none => none
    | some bm =>
      let entityMask := maskWord entityMasks (q.generations.getD 0 0) eid
      if bm.forbidden ≠ 0 ∧ entityMask &&& bm.forbidden ≠ 0 then some false
      else if bm.required ≠ 0 ∧ entityMask &&& bm.required ≠ bm.required then some false
      else if bm.or ≠ 0 ∧ entityMask &&& bm.or = 0 then some false
      else some true
  else some (checkQueryLoop entityMasks q eid (List.range q.generations.length))

/-- A mask word passes one bitmask triple: no forbidden bit, all required
bits, and — when the `or` mask is non-empty — at least one `or` bit. -/
def passesBitmask (bm : StaticBitmask) (entityMask : Nat) : Prop :=
  entityMask &&& bm.forbidden = 0 ∧
  entityMask &&& bm.required = bm.required ∧
  (bm.or = 0 ∨ entityMask &&& bm.or ≠ 0)

/-- A triple with at least one non-zero mask. -/
def bitmaskNonempty (bm : StaticBitmask) : Prop :=
  ¬ (bm.forbidden = 0 ∧ bm.required = 0 ∧ bm.or = 0)

instance (bm : StaticBitmask) (entityMask : Nat) : Decidable (passesBitmask bm entityMask) := by
  unfold passesBitmask; infer_instance

instance (bm : StaticBitmask) : Decidable (bitmaskNonempty bm) := by
  unfold bitmaskNonempty; infer_instance

/-! ### Destroy orchestrator (src/packages/core/src/entity/entity.ts) -/

/-- Auto-destroy policy of a relation (spec §6). -/
inductive AutoDestroy
  | nothing
  | source
  | target
deriving DecidableEq

/-- The world state consumed by the destroy orchestrator, for a world with
one registered relation.  Modelled from the spec (§6 world and relation
contracts): `alive` holds the handles for which `world.has` is true,
`edges` the relation's (source, target) pairs, `autoDestroy` its policy.
Trait data, query membership and mask rows of destroyed entities live in
collaborators outside the provided sources and do not affect existence or
the cascade. -/
structure DestroyWorld where
  alive : List Nat
  edges : List (Nat × Nat)
  autoDestroy : AutoDestroy

/-- Modelled from the spec: `getEntitiesWithRelationTo` (relation.ts, not
among the provided sources) enumerates the sources related to `target`
(spec §6 `sourcesOf`). -/
def sourcesOf (edges : List (Nat × Nat)) (target : Nat) : List Nat :=
  (edges.filter (fun p => p.2 == target)).map (fun p => p.1)

/-- Modelled from the spec: `getRelationTargets` (spec §6 `targetsOf`). -/
def targetsOf (edges : List (Nat × Nat)) (source : Nat) : List Nat :=
  (edges.filter (fun p => p.1 == source)).map (fun p => p.2)

/-- Modelled from the spec: `cleanupRelationTarget` unlinks one relation
edge (spec §6 `unlink`). -/
def unlinkEdge (edges : List (Nat × Nat)) (source target : Nat) : List (Nat × Nat) :=
  edges.filter (fun p => p != (source, target))

/-- Modelled from the spec: `releaseEntity` returns the slot to the pool,
after which the handle no longer exists (`world.has` is false). -/
def releaseEntity (alive : List Nat) (entity : Nat) : List Nat :=
  alive.filter (fun e => e != entity)

/-- The `while (entityQueue.length > 0)` cascade loop of `destroyEntity`.
The queue is a JS array used as a stack (`push`/`pop` at the end), modelled
with the most recently pushed handle at the head.  Fuel makes the recursion
structural, one unit per iteration; the result carries the processed set
(as a list, most recent first). -/
def destroyLoop (policy : AutoDestroy) :
    Nat → List Nat → List (Nat × Nat) → List Nat → List Nat →
      Option (DestroyWorld × List Nat)
  | fuel, alive, edges, queue, processed =>
    match queue with
    | [] => some (⟨alive, edges, policy⟩, processed)
    | current :: queueRest =>
      match fuel with
      | 0 => none
      | fuel' + 1 =>
        if current ∈ processed then
          destroyLoop policy fuel' alive edges queueRest processed
        else
          let processedNext := current :: processed
          -- snapshot the sources pointing at `current`; unlink each edge and,
          -- under the `source` policy, enqueue each still-existing source
          let step := (sourcesOf edges current).foldl
            (fun (st : List (Nat × Nat) × List Nat) src =>
              if src ∈ alive then
                (unlinkEdge st.1 src current,
                  if policy = AutoDestroy.source then src :: st.2 else st.2)
              else st)
            (edges, queueRest)
          let queueNext :=
            if policy = AutoDestroy.target then
              (targetsOf step.1 current).foldl
                (fun qs tgt =>
                  if tgt ∈ alive ∧ tgt ∉ processedNext then tgt :: qs else qs)
                step.2
            else step.2
          destroyLoop policy fuel' (releaseEntity alive current) step.1 queueNext processedNext

/-- `destroyEntity` (entity.ts): destroying a non-existent handle throws
`Koota: The entity being destroyed does not exist.`; otherwise the cascade
runs to completion (`fuel exhausted` stands for a truncated run and never
occurs with sufficient fuel). -/
def destroyEntity (w : DestroyWorld) (entity : Nat) (fuel : Nat) :
    Except String (DestroyWorld × List Nat) :=
  if entity ∈ w.alive then
    match destroyLoop w.autoDestroy fuel w.alive w.edges [entity] [] with
    | some result => Except.ok result
    | none => Except.error "fuel exhausted"
  else Except.error "Koota: The entity being destroyed does not exist."

example : (mkBitSet 1024).has 5 = false := by decide
example : ((mkBitSet 1024).add 5).2.has 5 = true := by decide
example : ((mkBitSet 1024).add 5).1 = true := by decide
example : (((mkBitSet 1024).add 5).2.add 5).1 = false := by decide
example : (((mkBitSet 1024).add 5).2.remove 5).2.has 5 = false := by decide
example : ((mkBitSet 1024).add 1025).2.capacity = 2048 := by decide
example : ((mkBitSet 1024).add 1025).2.has 1025 = true := by decide
example : BitSetWF ((mkBitSet 1024).add 1025).2 := by decide
example : wordBits 0b1001 = [0, 3] := by decide
example : forEachList ((mkBitSet 1024).add 5).2 = [5] := by decide
example : bitSetAndList ((mkBitSet 64).add 5).2 (((mkBitSet 64).add 5).2.add 7).2 = [5] := by decide

/-! ### Correctness of the per-word bit loop -/

theorem exists_testBit_of_ne_zero {n : Nat} (h : n ≠ 0) : ∃ i, n.testBit i = true := by
  by_contra hc
  push_neg at hc
  exact h (Nat.eq_of_testBit_eq (fun i => by
    simp [Nat.zero_testBit]
    exact Bool.eq_false_iff.mpr (fun hx => hc i (by simpa using hx))))

theorem testBit_bound {n k i : Nat} (hn : n < 2 ^ k) (hi : n.testBit i = true) : i < k := by
  by_contra hc
  push_neg at hc
  have : n < 2 ^ i := lt_of_lt_of_le hn (Nat.pow_le_pow_right (by norm_num) hc)
  rw [Nat.testBit_lt_two_pow this] at hi
  exact Bool.false_ne_true hi

theorem findIdx_append_of_exists {p : Nat → Bool} {l : List Nat} (l' : List Nat)
    (h : ∃ x ∈ l, p x = true) : (l ++ l').findIdx p = l.findIdx p := by
  induction l with
  | nil => obtain ⟨x, hx, _⟩ := h; exact absurd hx (List.not_mem_nil x)
  | cons a l ih =>
    rw [List.cons_append, List.findIdx_cons, List.findIdx_cons]
    cases hpa : p a with
    | true => simp
    | false =>
      obtain ⟨x, hx, hpx⟩ := h
      rcases List.mem_cons.mp hx with rfl | hx'
      · rw [hpa] at hpx; exact absurd hpx (by simp)
      · simp only [Bool.cond_false]
        rw [ih ⟨x, hx', hpx⟩]

theorem findIdx_map {p : Nat → Bool} {f : Nat → Nat} (l : List Nat) :
    (l.map f).findIdx p = l.findIdx (fun x => p (f x)) := by
  induction l with
  | nil => rfl
  | cons a l ih => rw [List.map_cons, List.findIdx_cons, List.findIdx_cons, ih]

theorem tzcnt32_odd {w : Nat} (hw : w % 2 = 1) : tzcnt32 w = 0 := by
  unfold tzcnt32
  rw [List.range_succ_eq_map, List.findIdx_cons]
  simp [Nat.testBit_zero, hw]

theorem tzcnt32_eq_findIdx31 {u : Nat} (hu : u ≠ 0) (hu31 : u < 2 ^ 31) :
    tzcnt32 u = (List.range 31).findIdx (fun i => u.testBit i) := by
  unfold tzcnt32
  obtain ⟨i, hi⟩ := exists_testBit_of_ne_zero hu
  have hi31 : i < 31 := testBit_bound hu31 hi
  have h32 : List.range 32 = List.range 31 ++ [31] := by decide
  rw [h32, findIdx_append_of_exists _ ⟨i, List.mem_range.mpr hi31, hi⟩]

theorem tzcnt32_double {u : Nat} (hu : u ≠ 0) (hu31 : u < 2 ^ 31) :
    tzcnt32 (2 * u) = tzcnt32 u + 1 := by
  rw [tzcnt32_eq_findIdx31 hu hu31]
  unfold tzcnt32
  have h32 : List.range 32 = 0 :: (List.range 31).map Nat.succ := by decide
  rw [h32, List.findIdx_cons]
  have h0 : (2 * u).testBit 0 = false := by
    simp [Nat.testBit_zero, Nat.mul_mod_right]
  rw [h0]
  simp only [Bool.cond_false]
  rw [findIdx_map]
  have hfun : (fun x => (2 * u).testBit (Nat.succ x)) = (fun i => u.testBit i) := by
    funext x
    rw [Nat.testBit_succ]
    congr 1
    omega
  rw [hfun]

theorem and_pred_odd {w : Nat} (hw : w % 2 = 1) : w &&& (w - 1) = w - 1 := by
  apply Nat.eq_of_testBit_eq
  intro i
  cases i with
  | zero =>
    rw [Nat.testBit_land, Nat.testBit_zero, Nat.testBit_zero]
    have : (w - 1) % 2 = 0 := by omega
    simp [this]
  | succ j =>
    rw [Nat.testBit_land, Nat.testBit_succ, Nat.testBit_succ]
    have : w / 2 = (w - 1) / 2 := by omega
    rw [this, Bool.and_self]

theorem and_pred_double {u : Nat} (_hu : u ≠ 0) :
    (2 * u) &&& (2 * u - 1) = 2 * (u &&& (u - 1)) := by
  apply Nat.eq_of_testBit_eq
  intro i
  cases i with
  | zero =>
    rw [Nat.testBit_land, Nat.testBit_zero, Nat.testBit_zero, Nat.testBit_zero]
    simp [Nat.mul_mod_right]
  | succ j =>
    rw [Nat.testBit_land, Nat.testBit_succ, Nat.testBit_succ, Nat.testBit_succ]
    have h1 : 2 * u / 2 = u := by omega
    have h2 : (2 * u - 1) / 2 = u - 1 := by omega
    have h3 : 2 * (u &&& (u - 1)) / 2 = u &&& (u - 1) := by omega
    rw [h1, h2, h3, Nat.testBit_land]

theorem filter_testBit_odd {w : Nat} (hw : w % 2 = 1) :
    (List.range 32).filter (fun i => w.testBit i) =
      0 :: (List.range 32).filter (fun i => (w - 1).testBit i) := by
  rw [List.range_succ_eq_map, List.filter_cons, List.filter_cons]
  have h0 : w.testBit 0 = true := by simp [Nat.testBit_zero, hw]
  have h0' : (w - 1).testBit 0 = false := by
    have : (w - 1) % 2 = 0 := by omega
    simp [Nat.testBit_zero, this]
  rw [h0, h0']
  simp only [if_true, if_false]
  congr 1
  rw [List.filter_map, List.filter_map]
  congr 1
  apply List.filter_congr
  intro x _
  show w.testBit (Nat.succ x) = (w - 1).testBit (Nat.succ x)
  rw [Nat.testBit_succ, Nat.testBit_succ]
  congr 1
  omega

theorem filter_testBit_double {u : Nat} (hu : u < 2 ^ 31) :
    (List.range 32).filter (fun i => (2 * u).testBit i) =
      ((List.range 32).filter (fun i => u.testBit i)).map Nat.succ := by
  have h32 : List.range 32 = 0 :: (List.range 31).map Nat.succ := by decide
  conv_lhs => rw [h32]
  rw [List.filter_cons]
  have h0 : (2 * u).testBit 0 = false := by simp [Nat.testBit_zero, Nat.mul_mod_right]
  rw [h0]
  simp only [Bool.false_eq_true, if_false]
  rw [List.filter_map]
  have h31 : ((List.range 32).filter (fun i => u.testBit i)) =
      ((List.range 31).filter (fun i => u.testBit i)) := by
    have h32' : List.range 32 = List.range 31 ++ [31] := by decide
    rw [h32', List.filter_append]
    have : u.testBit 31 = false := Nat.testBit_lt_two_pow hu
    simp [this]
  rw [h31]
  congr 1
  apply List.filter_congr
  intro x _
  show ((fun i => (2 * u).testBit i) ∘ Nat.succ) x = u.testBit x
  simp only [Function.comp_apply]
  rw [Nat.testBit_succ]
  congr 1
  omega

theorem filter_remove_lowbit :
    ∀ w : Nat, w ≠ 0 → w < 2 ^ 32 →
      (List.range 32).filter (fun i => w.testBit i) =
        tzcnt32 w :: (List.range 32).filter (fun i => (w &&& (w - 1)).testBit i) := by
  intro w
  induction w using Nat.strong_induction_on with
  | _ w ih =>
    intro hw hw32
    rcases Nat.even_or_odd w with he | ho
    · -- even: w = 2 * u with u ≠ 0
      obtain ⟨u, rfl⟩ := he
      have hw2 : u + u = 2 * u := by omega
      rw [hw2] at hw hw32 ⊢
      have hu : u ≠ 0 := by omega
      have hu31 : u < 2 ^ 31 := by omega
      rw [and_pred_double hu, filter_testBit_double hu31, tzcnt32_double hu hu31]
      have hlow : u &&& (u - 1) < 2 ^ 31 :=
        lt_of_le_of_lt Nat.and_le_left hu31
      rw [filter_testBit_double hlow]
      rw [ih u (by omega) hu (by omega)]
      rfl
    · -- odd
      have hmod : w % 2 = 1 := Nat.odd_iff.mp ho
      rw [and_pred_odd hmod, tzcnt32_odd hmod, filter_testBit_odd hmod]

theorem wordBitsGo_spec :
    ∀ w : Nat, ∀ fuel : Nat, w < fuel → w < 2 ^ 32 →
      wordBitsGo fuel w = (List.range 32).filter (fun i => w.testBit i) := by
  intro w
  induction w using Nat.strong_induction_on with
  | _ w ih =>
    intro fuel hfuel hw32
    cases fuel with
    | zero => omega
    | succ f =>
      by_cases hw : w = 0
      · subst hw
        simp [wordBitsGo, Nat.zero_testBit]
      · rw [wordBitsGo, if_neg hw]
        have hlt : w &&& (w - 1) < w :=
          lt_of_le_of_lt Nat.and_le_right (by omega)
        rw [ih (w &&& (w - 1)) hlt f (by omega) (by omega)]
        exact (filter_remove_lowbit w hw hw32).symm

/-- The per-word tzcnt visit loop enumerates the set bits of a 32-bit word
in strictly ascending order. -/
theorem wordBits_spec {w : Nat} (hw : w < 2 ^ 32) :
    wordBits w = (List.range 32).filter (fun i => w.testBit i) :=
  wordBitsGo_spec w (w + 1) (Nat.lt_succ_self w) hw

theorem wordBits_mem {w : Nat} (hw : w < 2 ^ 32) {i : Nat} :
    i ∈ wordBits w ↔ w.testBit i = true := by
  rw [wordBits_spec hw]
  constructor
  · intro h
    exact (List.mem_filter.mp h).2
  · intro h
    exact List.mem_filter.mpr ⟨List.mem_range.mpr (testBit_bound hw h), h⟩

theorem wordBits_lt32 {w : Nat} (hw : w < 2 ^ 32) {i : Nat} (h : i ∈ wordBits w) : i < 32 := by
  rw [wordBits_spec hw] at h
  exact List.mem_range.mp (List.mem_filter.mp h).1

theorem wordBits_sorted {w : Nat} (hw : w < 2 ^ 32) : (wordBits w).Pairwise (· < ·) := by
  rw [wordBits_spec hw]
  exact (List.pairwise_lt_range 32).filter _

theorem wordBits_zero : wordBits 0 = [] := rfl

/-! ### Correctness of the two-level block traversal -/

theorem range_mul_blocks (a b : Nat) :
    List.range (a * b) = (List.range a).flatMap (fun i => (List.range b).map (fun j => b * i + j)) := by
  induction a with
  | zero => simp
  | succ a ih =>
    have h1 : (a + 1) * b = a * b + b := by ring
    rw [h1, List.range_add, List.range_succ, List.flatMap_append, ← ih]
    congr 1
    simp only [List.flatMap_cons, List.flatMap_nil, List.append_nil]
    apply List.map_congr_left
    intro j _
    ring

theorem flatMap_filter_of_nil {p : Nat → Bool} {f : Nat → List Nat} {l : List Nat}
    (h : ∀ x ∈ l, p x = false → f x = []) :
    (l.filter p).flatMap f = l.flatMap f := by
  induction l with
  | nil => rfl
  | cons a l ih =>
    rw [List.filter_cons, List.flatMap_cons]
    have ih' := ih (fun x hx hpx => h x (List.mem_cons_of_mem a hx) hpx)
    cases hpa : p a with
    | true => simp only [if_true]; rw [List.flatMap_cons, ih']
    | false =>
      simp only [Bool.false_eq_true, if_false]
      rw [ih', h a (List.mem_cons_self a l) hpa, List.nil_append]

theorem filter_range_shrink {p : Nat → Bool} {m n : Nat} (hmn : m ≤ n)
    (h : ∀ k, m ≤ k → k < n → p k = false) :
    (List.range n).filter p = (List.range m).filter p := by
  have hn : n = m + (n - m) := by omega
  rw [hn, List.range_add, List.filter_append]
  have : ((List.range (n - m)).map (fun x => m + x)).filter p = [] := by
    rw [List.filter_eq_nil_iff]
    intro a ha
    obtain ⟨j, hj, rfl⟩ := List.mem_map.mp ha
    exact (by simpa using h (m + j) (by omega) (by have := List.mem_range.mp hj; omega))
  rw [this, List.append_nil]

/-- Main traversal lemma: if every nonzero bottom word (below the iterated
top range) is announced by its top-level bit, the two-level skip traversal
visits exactly the keys whose bottom-word bit is set, in ascending order. -/
theorem traverseBlocks_spec (n : Nat) (tf bf : Nat → Nat)
    (htf : ∀ ti, ti < n → tf ti < 2 ^ 32)
    (hbf : ∀ bi, bi < 32 * n → bf bi < 2 ^ 32)
    (hlink : ∀ bi, bi < 32 * n → bf bi ≠ 0 → (tf (bi / 32)).testBit (bi % 32) = true) :
    traverseBlocks n tf bf =
      (List.range (1024 * n)).filter (fun k => (bf (k / 32)).testBit (k % 32)) := by
  have hG : ∀ bi, bi < 32 * n →
      ((List.range 32).map (fun j => 32 * bi + j)).filter
          (fun k => (bf (k / 32)).testBit (k % 32)) =
        (wordBits (bf bi)).map (fun j => 32 * bi + j) := by
    intro bi hbi
    rw [List.filter_map, wordBits_spec (hbf bi hbi)]
    congr 1
    apply List.filter_congr
    intro j hj
    have hj32 : j < 32 := List.mem_range.mp hj
    simp only [Function.comp_apply]
    have hd : (32 * bi + j) / 32 = bi := by omega
    have hm : (32 * bi + j) % 32 = j := by omega
    rw [hd, hm]
  symm
  rw [show (1024 : Nat) * n = (32 * n) * 32 from by ring, range_mul_blocks (32 * n) 32,
    List.filter_flatMap]
  rw [List.flatMap_congr (fun bi hbi => hG bi (List.mem_range.mp hbi))]
  rw [show (32 : Nat) * n = n * 32 from by ring, range_mul_blocks n 32, List.flatMap_assoc]
  unfold traverseBlocks
  apply List.flatMap_congr
  intro ti hti
  have hti' : ti < n := List.mem_range.mp hti
  rw [List.flatMap_map]
  rw [wordBits_spec (htf ti hti')]
  have hside : ∀ tb ∈ List.range 32, (fun i => (tf ti).testBit i) tb = false →
      (fun topBit => (wordBits (bf (32 * ti + topBit))).map
        (fun bottomBit => 32 * (32 * ti + topBit) + bottomBit)) tb = [] := by
    intro tb htb hfalse
    have htb32 : tb < 32 := List.mem_range.mp htb
    have hbi : 32 * ti + tb < 32 * n := by omega
    have hz : bf (32 * ti + tb) = 0 := by
      by_contra hnz
      have hl := hlink (32 * ti + tb) hbi hnz
      have hd : (32 * ti + tb) / 32 = ti := by omega
      have hm : (32 * ti + tb) % 32 = tb := by omega
      rw [hd, hm] at hl
      simp only [hl] at hfalse
      exact Bool.true_eq_false.mp hfalse
    simp only [hz, wordBits_zero, List.map_nil]
  rw [flatMap_filter_of_nil hside]

/-! ### BitSet characterizations under the structural invariant -/

theorem getD_lt_of_all {l : List Nat} (h : ∀ w ∈ l, w < 2 ^ 32) (i : Nat) :
    l.getD i 0 < 2 ^ 32 := by
  by_cases hi : i < l.length
  · rw [List.getD_eq_getElem l 0 hi]
    exact h _ (List.getElem_mem hi)
  · rw [List.getD_eq_default l 0 (by omega)]
    norm_num

theorem bitset_len_le (s : BitSet) (h : BitSetWF s) :
    s.bottom.length ≤ 32 * s.top.length := by
  obtain ⟨_, h2, _⟩ := h
  omega

theorem bitset_cap_le (s : BitSet) (h : BitSetWF s) :
    s.capacity ≤ 32 * s.bottom.length := by
  obtain ⟨h1, _⟩ := h
  omega

/-- `has` agrees with the raw bottom-word bit everywhere: bits at or beyond
`capacity` are never set in a well-formed state. -/
theorem bitset_has_eq (s : BitSet) (h : BitSetWF s) (k : Nat) :
    s.has k = (s.bottom.getD (k / 32) 0).testBit (k % 32) := by
  unfold BitSet.has
  by_cases hk : s.capacity ≤ k
  · rw [if_pos hk]
    by_cases hk' : k < 32 * s.bottom.length
    · exact (h.2.2.2.2.2 k hk hk').symm
    · have : s.bottom.length ≤ k / 32 := by omega
      rw [List.getD_eq_default s.bottom 0 this, Nat.zero_testBit]
  · rw [if_neg hk]

/-- A nonzero bottom word is announced by its top bit. -/
theorem bitset_link (s : BitSet) (h : BitSetWF s) (bi : Nat)
    (hnz : s.bottom.getD bi 0 ≠ 0) :
    (s.top.getD (bi / 32) 0).testBit (bi % 32) = true := by
  by_cases hbi : bi < s.bottom.length
  · have hlt : bi < 32 * s.top.length := by
      have := bitset_len_le s h
      omega
    rw [h.2.2.2.2.1 bi hlt]
    simpa using hnz
  · rw [List.getD_eq_default s.bottom 0 (by omega)] at hnz
    exact absurd rfl hnz

theorem bitset_has_false_beyond (s : BitSet) (h : BitSetWF s) {k : Nat}
    (hk : 1024 * s.top.length ≤ k) : s.has k = false := by
  unfold BitSet.has
  rw [if_pos]
  have h1 := bitset_cap_le s h
  have h2 := bitset_len_le s h
  omega

theorem forEachList_eq (s : BitSet) (h : BitSetWF s) :
    forEachList s = (List.range (1024 * s.top.length)).filter (fun k => s.has k) := by
  unfold forEachList
  rw [traverseBlocks_spec _ _ _
    (fun ti _ => getD_lt_of_all h.2.2.2.1 ti)
    (fun bi _ => getD_lt_of_all h.2.2.1 bi)
    (fun bi _ hnz => bitset_link s h bi hnz)]
  apply List.filter_congr
  intro k _
  exact (bitset_has_eq s h k).symm

theorem bitSetAndList_eq (a b : BitSet) (ha : BitSetWF a) (hb : BitSetWF b) :
    bitSetAndList a b =
      (List.range (1024 * min a.top.length b.top.length)).filter
        (fun k => a.has k && b.has k) := by
  unfold bitSetAndList
  rw [traverseBlocks_spec _ _ _
    (fun ti _ => lt_of_le_of_lt Nat.and_le_left (getD_lt_of_all ha.2.2.2.1 ti))
    (fun bi _ => lt_of_le_of_lt Nat.and_le_left (getD_lt_of_all ha.2.2.1 bi))
    (fun bi _ hnz => by
      have hna : a.bottom.getD bi 0 ≠ 0 := by
        intro hz; rw [hz, Nat.zero_and] at hnz; exact hnz rfl
      have hnb : b.bottom.getD bi 0 ≠ 0 := by
        intro hz; rw [hz, Nat.and_zero] at hnz; exact hnz rfl
      rw [Nat.testBit_land, bitset_link a ha bi hna, bitset_link b hb bi hnb]
      rfl)]
  apply List.filter_congr
  intro k _
  rw [Nat.testBit_land, bitset_has_eq a ha k, bitset_has_eq b hb k]

theorem testBit_not32 {w j : Nat} (hj : j < 32) :
    (w ^^^ (2 ^ 32 - 1)).testBit j = !w.testBit j := by
  rw [Nat.testBit_xor, Nat.testBit_two_pow_sub_one]
  simp [hj]

theorem bitSetAndNotList_eq (a b : BitSet) (ha : BitSetWF a) (hb : BitSetWF b) :
    bitSetAndNotList a b =
      (List.range (1024 * a.top.length)).filter
        (fun k => a.has k && !(b.has k)) := by
  unfold bitSetAndNotList
  rw [traverseBlocks_spec _ _ _
    (fun ti _ => getD_lt_of_all ha.2.2.2.1 ti)
    (fun bi _ => lt_of_le_of_lt Nat.and_le_left (getD_lt_of_all ha.2.2.1 bi))
    (fun bi _ hnz => by
      have hna : a.bottom.getD bi 0 ≠ 0 := by
        intro hz; rw [hz, Nat.zero_and] at hnz; exact hnz rfl
      exact bitset_link a ha bi hna)]
  apply List.filter_congr
  intro k _
  rw [Nat.testBit_land, testBit_not32 (Nat.mod_lt k (by norm_num)),
    bitset_has_eq a ha k, bitset_has_eq b hb k]

/-! ### Claim C4: bitSetAnd / bitSetAndNot visit sets and order -/

/-- C4: `bitSetAnd(A, B, visit)` invokes the visitor exactly on
{k : A.has k ∧ B.has k} in strictly ascending key order, and
`bitSetAndNot(A, B, visit)` exactly on {k : A.has k ∧ ¬B.has k}, with
top/bottom blocks absent from `B` read as zero rather than an error. -/
theorem bitSetAnd_visits_exactly_intersection (a b : BitSet)
    (ha : BitSetWF a) (hb : BitSetWF b) :
    ((∀ k, k ∈ bitSetAndList a b ↔ (a.has k = true ∧ b.has k = true)) ∧
      (bitSetAndList a b).Pairwise (· < ·)) ∧
    ((∀ k, k ∈ bitSetAndNotList a b ↔ (a.has k = true ∧ b.has k = false)) ∧
      (bitSetAndNotList a b).Pairwise (· < ·)) := by
  refine ⟨⟨?_, ?_⟩, ?_, ?_⟩
  · intro k
    rw [bitSetAndList_eq a b ha hb, List.mem_filter, List.mem_range]
    constructor
    · rintro ⟨-, h2⟩
      simpa using h2
    · rintro ⟨h1, h2⟩
      refine ⟨?_, by rw [h1, h2]; rfl⟩
      by_contra hk
      push_neg at hk
      rcases le_total a.top.length b.top.length with hab | hab
      · rw [min_eq_left hab] at hk
        rw [bitset_has_false_beyond a ha hk] at h1
        exact Bool.false_ne_true h1
      · rw [min_eq_right hab] at hk
        rw [bitset_has_false_beyond b hb hk] at h2
        exact Bool.false_ne_true h2
  · rw [bitSetAndList_eq a b ha hb]
    exact (List.pairwise_lt_range _).filter _
  · intro k
    rw [bitSetAndNotList_eq a b ha hb, List.mem_filter, List.mem_range]
    constructor
    · rintro ⟨-, h2⟩
      have h3 := h2
      simp only [Bool.and_eq_true, Bool.not_eq_true'] at h3
      exact h3
    · rintro ⟨h1, h2⟩
      refine ⟨?_, by rw [h1, h2]; rfl⟩
      by_contra hk
      push_neg at hk
      rw [bitset_has_false_beyond a ha hk] at h1
      exact Bool.false_ne_true h1
  · rw [bitSetAndNotList_eq a b ha hb]
    exact (List.pairwise_lt_range _).filter _

/-- Witness for C4 at concrete sets {5, 2000} and {5, 7}, the second
allocated smaller than the first. -/
theorem bitSetAnd_visits_exactly_intersection_witness :
    2000 ∈ bitSetAndNotList (bitSetOfList 4096 [5, 2000]) (bitSetOfList 64 [5, 7]) ∧
    (bitSetAndList (bitSetOfList 4096 [5, 2000]) (bitSetOfList 64 [5, 7])).Pairwise (· < ·) := by
  have h := bitSetAnd_visits_exactly_intersection
    (bitSetOfList 4096 [5, 2000]) (bitSetOfList 64 [5, 7]) (by decide) (by decide)
  exact ⟨(h.2.1 2000).mpr ⟨by decide, by decide⟩, h.1.2⟩

/-! ### Claim C9: bitSetAndMany agrees with reduced pairwise AND -/

theorem foldl_min_le_init (rest : List BitSet) (init : Nat) :
    rest.foldl (fun m s => min m s.top.length) init ≤ init := by
  induction rest generalizing init with
  | nil => exact le_refl _
  | cons a rest ih =>
    exact le_trans (ih (min init a.top.length)) (min_le_left _ _)

theorem foldl_min_eq_cases (rest : List BitSet) (init : Nat) :
    rest.foldl (fun m s => min m s.top.length) init = init ∨
      ∃ s ∈ rest, rest.foldl (fun m s => min m s.top.length) init = s.top.length := by
  induction rest generalizing init with
  | nil => exact Or.inl rfl
  | cons a rest ih =>
    rw [List.foldl_cons]
    rcases Nat.le_total init a.top.length with hle | hle
    · rw [min_eq_left hle]
      rcases ih init with h | ⟨s, hs, h⟩
      · exact Or.inl h
      · exact Or.inr ⟨s, List.mem_cons_of_mem a hs, h⟩
    · rw [min_eq_right hle]
      rcases ih a.top.length with h | ⟨s, hs, h⟩
      · exact Or.inr ⟨a, List.mem_cons_self a rest, h⟩
      · exact Or.inr ⟨s, List.mem_cons_of_mem a hs, h⟩

theorem foldl_land_le (rest : List BitSet) (f : BitSet → Nat) (w0 : Nat) :
    rest.foldl (fun w s => w &&& f s) w0 ≤ w0 := by
  induction rest generalizing w0 with
  | nil => exact le_refl _
  | cons a rest ih =>
    exact le_trans (ih (w0 &&& f a)) Nat.and_le_left

theorem foldl_land_testBit (rest : List BitSet) (f : BitSet → Nat) (w0 j : Nat) :
    (rest.foldl (fun w s => w &&& f s) w0).testBit j =
      (w0.testBit j && rest.all (fun s => (f s).testBit j)) := by
  induction rest generalizing w0 with
  | nil => simp
  | cons a rest ih =>
    rw [List.foldl_cons, ih, Nat.testBit_land, List.all_cons, Bool.and_assoc]

theorem foldl_filter_all (rest : List BitSet) (init : List Nat) :
    rest.foldl (fun acc t => acc.filter (fun k => t.has k)) init =
      init.filter (fun k => rest.all (fun t => t.has k)) := by
  induction rest generalizing init with
  | nil => simp
  | cons a rest ih =>
    rw [List.foldl_cons, ih, List.filter_filter]
    apply List.filter_congr
    intro k _
    rw [List.all_cons, Bool.and_comm]

theorem all_congr_mem {l : List BitSet} {f g : BitSet → Bool}
    (h : ∀ s ∈ l, f s = g s) : l.all f = l.all g := by
  induction l with
  | nil => rfl
  | cons a l ih =>
    rw [List.all_cons, List.all_cons, h a (List.mem_cons_self a l),
      ih (fun s hs => h s (List.mem_cons_of_mem a hs))]

/-- The n-way loop of `bitSetAndMany` (three or more sets), characterized
like the pairwise traversals. -/
theorem bitSetAndMany_nway_eq (s0 s1 s2 : BitSet) (rest3 : List BitSet)
    (hwf : ∀ s ∈ s0 :: s1 :: s2 :: rest3, BitSetWF s) :
    bitSetAndManyList (s0 :: s1 :: s2 :: rest3) =
      (List.range (1024 * ((s1 :: s2 :: rest3).foldl (fun m s => min m s.top.length)
          s0.top.length))).filter
        (fun k => s0.has k && (s1 :: s2 :: rest3).all (fun s => s.has k)) := by
  have hwf0 : BitSetWF s0 := hwf s0 (List.mem_cons_self _ _)
  have hwfr : ∀ s ∈ s1 :: s2 :: rest3, BitSetWF s :=
    fun s hs => hwf s (List.mem_cons_of_mem s0 hs)
  simp only [bitSetAndManyList]
  rw [traverseBlocks_spec _ _ _
    (fun ti _ => lt_of_le_of_lt (foldl_land_le _ _ _) (getD_lt_of_all hwf0.2.2.2.1 ti))
    (fun bi _ => lt_of_le_of_lt (foldl_land_le _ _ _) (getD_lt_of_all hwf0.2.2.1 bi))
    (fun bi _ hnz => by
      obtain ⟨j, hj⟩ := exists_testBit_of_ne_zero hnz
      rw [foldl_land_testBit, Bool.and_eq_true] at hj
      obtain ⟨hj0, hjall0⟩ := hj
      have hjall := List.all_eq_true.mp hjall0
      rw [foldl_land_testBit, Bool.and_eq_true]
      constructor
      · exact bitset_link s0 hwf0 bi (fun hz => by
          rw [hz, Nat.zero_testBit] at hj0; exact Bool.false_ne_true hj0)
      · apply List.all_eq_true.mpr
        intro s hs
        exact bitset_link s (hwfr s hs) bi (fun hz => by
          have := hjall s hs
          rw [hz, Nat.zero_testBit] at this
          exact Bool.false_ne_true this))]
  apply List.filter_congr
  intro k _
  rw [foldl_land_testBit, bitset_has_eq s0 hwf0 k]
  congr 1
  apply all_congr_mem
  intro s hs
  exact (bitset_has_eq s (hwfr s hs) k).symm

/-- C9: for every non-empty list of BitSets, `bitSetAndMany` visits exactly
the same keys in the same ascending order as pairwise `bitSetAnd` reduced
across the sets, despite the special-cased 1-set and 2-set paths and the
n-way word-AND loop; the spec's 3-way scenario over {1,5,1025},
{5,1025,2000}, {5,1025} visits exactly [5, 1025]. -/
theorem bitSetAndMany_matches_pairwise_reduction :
    (∀ sets : List BitSet, sets ≠ [] → (∀ s ∈ sets, BitSetWF s) →
      bitSetAndManyList sets = pairwiseReduced sets) ∧
    bitSetAndManyList [exampleSetA, exampleSetB, exampleSetC] = [5, 1025] := by
  constructor
  · intro sets hne hwf
    match sets with
    | [] => exact absurd rfl hne
    | [s] => rfl
    | [a, b] =>
      have ha : BitSetWF a := hwf a (by simp)
      have hb : BitSetWF b := hwf b (by simp)
      show bitSetAndList a b = _
      simp only [pairwiseReduced]
      rw [List.foldl_cons, List.foldl_nil, forEachList_eq a ha, List.filter_filter,
        bitSetAndList_eq a b ha hb]
      have hshrink : (List.range (1024 * a.top.length)).filter
            (fun k => b.has k && a.has k) =
          (List.range (1024 * min a.top.length b.top.length)).filter
            (fun k => b.has k && a.has k) := by
        apply filter_range_shrink
        · exact Nat.mul_le_mul_left 1024 (min_le_left _ _)
        · intro k hk1 hk2
          rcases Nat.le_total a.top.length b.top.length with hab | hab
          · rw [min_eq_left hab] at hk1; omega
          · rw [min_eq_right hab] at hk1
            rw [bitset_has_false_beyond b hb hk1, Bool.false_and]
      rw [hshrink]
      apply List.filter_congr
      intro k _
      rw [Bool.and_comm]
    | s0 :: s1 :: s2 :: rest3 =>
      have hwf0 : BitSetWF s0 := hwf s0 (List.mem_cons_self _ _)
      have hwfr : ∀ s ∈ s1 :: s2 :: rest3, BitSetWF s :=
        fun s hs => hwf s (List.mem_cons_of_mem s0 hs)
      rw [bitSetAndMany_nway_eq s0 s1 s2 rest3 hwf]
      simp only [pairwiseReduced]
      rw [foldl_filter_all, forEachList_eq s0 hwf0, List.filter_filter]
      have hshrink : (List.range (1024 * s0.top.length)).filter
            (fun k => (s1 :: s2 :: rest3).all (fun t => t.has k) && s0.has k) =
          (List.range (1024 * ((s1 :: s2 :: rest3).foldl
              (fun m s => min m s.top.length) s0.top.length))).filter
            (fun k => (s1 :: s2 :: rest3).all (fun t => t.has k) && s0.has k) := by
        apply filter_range_shrink
        · exact Nat.mul_le_mul_left 1024 (foldl_min_le_init _ _)
        · intro k hk1 hk2
          rcases foldl_min_eq_cases (s1 :: s2 :: rest3) s0.top.length with hc | ⟨s, hs, hc⟩
          · rw [hc] at hk1; omega
          · rw [hc] at hk1
            have hsf : s.has k = false := bitset_has_false_beyond s (hwfr s hs) hk1
            have : (s1 :: s2 :: rest3).all (fun t => t.has k) = false := by
              cases hall : (s1 :: s2 :: rest3).all (fun t => t.has k) with
              | false => rfl
              | true =>
                have := List.all_eq_true.mp hall s hs
                rw [hsf] at this
                exact absurd this (by simp)
            rw [this, Bool.false_and]
      rw [hshrink]
      apply List.filter_congr
      intro k _
      rw [Bool.and_comm]
  · decide

/-- Witness for C9 at the spec's 3-way scenario sets. -/
theorem bitSetAndMany_matches_pairwise_reduction_witness :
    bitSetAndManyList [exampleSetA, exampleSetB, exampleSetC] =
      pairwiseReduced [exampleSetA, exampleSetB, exampleSetC] :=
  bitSetAndMany_matches_pairwise_reduction.1
    [exampleSetA, exampleSetB, exampleSetC] (List.cons_ne_nil _ _)
    (by intro s hs; fin_cases hs <;> decide)

/-! ### List update and padding helpers -/

theorem getD_replicate_zero (n i : Nat) : (List.replicate n 0).getD i 0 = 0 := by
  induction n generalizing i with
  | zero => rfl
  | succ n ih =>
    cases i with
    | zero => rfl
    | succ j => exact ih j

theorem getD_zero_pad (l : List Nat) (n i : Nat) :
    (l ++ List.replicate n 0).getD i 0 = l.getD i 0 := by
  induction l generalizing i with
  | nil => rw [List.nil_append]; exact getD_replicate_zero n i
  | cons a l ih =>
    cases i with
    | zero => rfl
    | succ j => exact ih j

theorem getD_set_self (l : List Nat) (i v : Nat) (h : i < l.length) :
    (l.set i v).getD i 0 = v := by
  induction l generalizing i with
  | nil => simp at h
  | cons a l ih =>
    cases i with
    | zero => rfl
    | succ j => exact ih j (by simpa using h)

theorem getD_set_ne (l : List Nat) (i j v : Nat) (h : i ≠ j) :
    (l.set i v).getD j 0 = l.getD j 0 := by
  induction l generalizing i j with
  | nil => rfl
  | cons a l ih =>
    cases i with
    | zero =>
      cases j with
      | zero => exact absurd rfl h
      | succ j' => rfl
    | succ i' =>
      cases j with
      | zero => rfl
      | succ j' => exact ih i' j' (by omega)

/-! ### The doubling loop -/

theorem growLoop_spec : ∀ (fuel cap minCap : Nat), 0 < cap →
    minCap ≤ cap * 2 ^ fuel →
    (∃ k, growLoop fuel cap minCap = cap * 2 ^ k) ∧
    minCap ≤ growLoop fuel cap minCap ∧
    (∀ j, minCap ≤ cap * 2 ^ j → growLoop fuel cap minCap ≤ cap * 2 ^ j) := by
  intro fuel
  induction fuel with
  | zero =>
    intro cap minCap hcap hle
    rw [pow_zero, Nat.mul_one] at hle
    have h0 : growLoop 0 cap minCap = cap := rfl
    refine ⟨⟨0, by rw [h0, pow_zero, Nat.mul_one]⟩, ?_, ?_⟩
    · rw [h0]; exact hle
    · intro j hj
      rw [h0]
      exact Nat.le_mul_of_pos_right cap (Nat.pos_pow_of_pos j (by norm_num))
  | succ fuel ih =>
    intro cap minCap hcap hle
    show _ ∧ _ ∧ _
    by_cases hlt : cap < minCap
    · have hle' : minCap ≤ cap * 2 * 2 ^ fuel := by
        rw [Nat.mul_assoc, ← Nat.pow_succ']
        exact hle
      obtain ⟨⟨k, hk⟩, hge, hmin⟩ := ih (cap * 2) minCap (by omega) hle'
      rw [growLoop, if_pos hlt]
      refine ⟨⟨k + 1, by rw [hk, Nat.mul_assoc, Nat.pow_succ']⟩, hge, ?_⟩
      intro j hj
      cases j with
      | zero =>
        rw [pow_zero, Nat.mul_one] at hj
        omega
      | succ j' =>
        have := hmin j' (by rw [Nat.mul_assoc, ← Nat.pow_succ']; exact hj)
        rw [Nat.mul_assoc, ← Nat.pow_succ'] at this
        exact this
    · rw [growLoop, if_neg hlt]
      refine ⟨⟨0, by rw [pow_zero, Nat.mul_one]⟩, by omega, ?_⟩
      intro j _
      exact Nat.le_mul_of_pos_right cap (Nat.pos_pow_of_pos j (by norm_num))

theorem growCapacity_spec (cap minCap : Nat) (hcap : 0 < cap) :
    (∃ k, growCapacity cap minCap = cap * 2 ^ k) ∧
    minCap ≤ growCapacity cap minCap ∧
    (∀ j, minCap ≤ cap * 2 ^ j → growCapacity cap minCap ≤ cap * 2 ^ j) := by
  apply growLoop_spec minCap cap minCap hcap
  calc minCap ≤ 2 ^ minCap := Nat.le_of_lt (Nat.lt_two_pow minCap)
    _ ≤ cap * 2 ^ minCap := Nat.le_mul_of_pos_left _ hcap

theorem growCapacity_ge_cap (cap minCap : Nat) (hcap : 0 < cap) :
    cap ≤ growCapacity cap minCap := by
  obtain ⟨⟨k, hk⟩, -, -⟩ := growCapacity_spec cap minCap hcap
  rw [hk]
  exact Nat.le_mul_of_pos_right cap (Nat.pos_pow_of_pos k (by norm_num))

theorem growCapacity_ge_min (cap minCap : Nat) (hcap : 0 < cap) :
    minCap ≤ growCapacity cap minCap :=
  (growCapacity_spec cap minCap hcap).2.1

theorem growCapacity_pos (cap minCap : Nat) (hcap : 0 < cap) :
    0 < growCapacity cap minCap :=
  lt_of_lt_of_le hcap (growCapacity_ge_cap cap minCap hcap)

/-! ### BitSet operation step lemmas -/

theorem bitset_rawbit_false (s : BitSet) (hwf : BitSetWF s) {k : Nat} (hk : s.capacity ≤ k) :
    (s.bottom.getD (k / 32) 0).testBit (k % 32) = false := by
  by_cases h : k < 32 * s.bottom.length
  · exact hwf.2.2.2.2.2 k hk h
  · rw [List.getD_eq_default _ _ (by omega : s.bottom.length ≤ k / 32), Nat.zero_testBit]

theorem bitset_grow_preserves (s : BitSet) (m : Nat) (hwf : BitSetWF s)
    (hcap : 0 < s.capacity) :
    BitSetWF (s.grow m) ∧
    s.capacity ≤ (s.grow m).capacity ∧
    (s.grow m).capacity = growCapacity s.capacity m ∧
    m ≤ (s.grow m).capacity ∧
    (s.grow m).count = s.count ∧
    (∀ i, (s.grow m).bottom.getD i 0 = s.bottom.getD i 0) ∧
    (∀ i, (s.grow m).top.getD i 0 = s.top.getD i 0) ∧
    (∀ k, (s.grow m).has k = s.has k) := by
  have hle : s.capacity ≤ growCapacity s.capacity m := growCapacity_ge_cap _ _ hcap
  have hmin : m ≤ growCapacity s.capacity m := growCapacity_ge_min _ _ hcap
  have hBW : s.bottom.length ≤ (growCapacity s.capacity m + 31) / 32 := by
    rw [hwf.1]
    exact Nat.div_le_div_right (by omega)
  have hTW : s.top.length ≤ ((growCapacity s.capacity m + 31) / 32 + 31) / 32 := by
    rw [hwf.2.1, hwf.1]
    exact Nat.div_le_div_right (by exact Nat.add_le_add_right (Nat.div_le_div_right (by omega)) 31)
  have hblen : (s.grow m).bottom.length = (growCapacity s.capacity m + 31) / 32 := by
    show (s.bottom ++ List.replicate _ 0).length = _
    rw [List.length_append, List.length_replicate]
    omega
  have htlen : (s.grow m).top.length = ((growCapacity s.capacity m + 31) / 32 + 31) / 32 := by
    show (s.top ++ List.replicate _ 0).length = _
    rw [List.length_append, List.length_replicate]
    omega
  have hbot : ∀ i, (s.grow m).bottom.getD i 0 = s.bottom.getD i 0 :=
    fun i => getD_zero_pad s.bottom _ i
  have htop : ∀ i, (s.grow m).top.getD i 0 = s.top.getD i 0 :=
    fun i => getD_zero_pad s.top _ i
  have hcap' : (s.grow m).capacity = growCapacity s.capacity m := rfl
  have hhas : ∀ k, (s.grow m).has k = s.has k := by
    intro k
    unfold BitSet.has
    rw [hcap', hbot]
    by_cases h1 : s.capacity ≤ k
    · rw [if_pos h1, bitset_rawbit_false s hwf h1]
      by_cases h2 : growCapacity s.capacity m ≤ k
      · rw [if_pos h2]
      · rw [if_neg h2]
    · rw [if_neg h1, if_neg (by omega)]
  refine ⟨⟨hblen, ?_, ?_, ?_, ?_, ?_⟩, by rw [hcap']; omega, hcap', by rw [hcap']; omega,
    rfl, hbot, htop, hhas⟩
  · rw [htlen, hblen]
  · intro w hw
    rcases List.mem_append.mp hw with h | h
    · exact hwf.2.2.1 w h
    · rw [List.eq_of_mem_replicate h]; norm_num
  · intro w hw
    rcases List.mem_append.mp hw with h | h
    · exact hwf.2.2.2.1 w h
    · rw [List.eq_of_mem_replicate h]; norm_num
  · intro bi _
    rw [htop, hbot]
    by_cases hb : bi < 32 * s.top.length
    · exact hwf.2.2.2.2.1 bi hb
    · have h1 : s.top.length ≤ bi / 32 := by omega
      have h2 : s.bottom.length ≤ bi := by
        have := bitset_len_le s hwf
        omega
      rw [List.getD_eq_default _ _ h1, List.getD_eq_default _ _ h2, Nat.zero_testBit]
      rfl
  · intro k hk hklen
    rw [hbot]
    by_cases h1 : k < 32 * s.bottom.length
    · exact hwf.2.2.2.2.2 k (by rw [hcap'] at hk; omega) h1
    · rw [List.getD_eq_default _ _ (by omega : s.bottom.length ≤ k / 32), Nat.zero_testBit]

theorem ne_zero_of_testBit {x i : Nat} (h : x.testBit i = true) : x ≠ 0 := by
  intro h0
  rw [h0, Nat.zero_testBit] at h
  exact Bool.false_ne_true h

theorem bitset_add_step (s₀ : BitSet) (k : Nat) (hwf : BitSetWF s₀)
    (hcap : 0 < s₀.capacity) :
    BitSetWF (s₀.add k).2 ∧
    0 < (s₀.add k).2.capacity ∧
    s₀.capacity ≤ (s₀.add k).2.capacity ∧
    (∀ j, (s₀.add k).2.has j = (if j = k then true else s₀.has j)) ∧
    (s₀.add k).2.count = s₀.count + (if s₀.has k then 0 else 1) := by
  set s₁ := if s₀.capacity ≤ k then s₀.grow (k + 1) else s₀ with hs₁
  have hpack : BitSetWF s₁ ∧ 0 < s₁.capacity ∧ s₀.capacity ≤ s₁.capacity ∧
      k < s₁.capacity ∧ s₁.count = s₀.count ∧ (∀ j, s₁.has j = s₀.has j) := by
    rw [hs₁]
    by_cases h : s₀.capacity ≤ k
    · rw [if_pos h]
      obtain ⟨hw, hc1, -, hc3, hc4, -, -, hc5⟩ := bitset_grow_preserves s₀ (k + 1) hwf hcap
      exact ⟨hw, by omega, hc1, by omega, hc4, hc5⟩
    · rw [if_neg h]
      exact ⟨hwf, hcap, le_refl _, by omega, rfl, fun _ => rfl⟩
  obtain ⟨hwf₁, hcap₁, hle₁, hk₁, hcnt₁, hhas₁⟩ := hpack
  have hadd : (s₀.add k).2 =
      (if (s₁.bottom.getD (k / 32) 0).testBit (k % 32) then s₁
       else
        { bottom := s₁.bottom.set (k / 32) ((s₁.bottom.getD (k / 32) 0) ||| 2 ^ (k % 32))
          top := s₁.top.set (k / 32 / 32)
            ((s₁.top.getD (k / 32 / 32) 0) ||| 2 ^ (k / 32 % 32))
          count := s₁.count + 1
          capacity := s₁.capacity }) := by
    show (BitSet.add s₀ k).2 = _
    unfold BitSet.add
    rw [← hs₁]
    by_cases hbit : (s₁.bottom.getD (k / 32) 0).testBit (k % 32)
    · rw [if_pos hbit, if_pos hbit]
    · rw [if_neg hbit, if_neg hbit]
  have hhas₁k : s₁.has k = (s₁.bottom.getD (k / 32) 0).testBit (k % 32) := by
    unfold BitSet.has
    rw [if_neg (by omega)]
  by_cases hbit : (s₁.bottom.getD (k / 32) 0).testBit (k % 32)
  · -- bit already set: no-op
    rw [hadd, if_pos hbit]
    refine ⟨hwf₁, hcap₁, hle₁, ?_, ?_⟩
    · intro j
      by_cases hj : j = k
      · subst hj
        rw [if_pos rfl, hhas₁k, hbit]
      · rw [if_neg hj, hhas₁]
    · rw [← hhas₁ k, hhas₁k, hbit, if_pos rfl, hcnt₁]
      omega
  · -- new bit
    rw [hadd, if_neg hbit]
    have hbl : k / 32 < s₁.bottom.length := by
      rw [hwf₁.1]; omega
    have htl : k / 32 / 32 < s₁.top.length := by
      rw [hwf₁.2.1]
      have := hbl
      omega
    have hpow32 : ∀ i : Nat, i < 32 → (2 : Nat) ^ i < 2 ^ 32 := by
      intro i hi
      exact Nat.pow_lt_pow_right (by norm_num) hi
    have hrawj : ∀ j, j ≠ k →
        ((s₁.bottom.set (k / 32) ((s₁.bottom.getD (k / 32) 0) ||| 2 ^ (k % 32))).getD
            (j / 32) 0).testBit (j % 32) =
          (s₁.bottom.getD (j / 32) 0).testBit (j % 32) := by
      intro j hj
      by_cases hc : j / 32 = k / 32
      · rw [hc, getD_set_self _ _ _ hbl, Nat.testBit_lor, Nat.testBit_two_pow]
        have hd : decide (k % 32 = j % 32) = false := decide_eq_false (by omega)
        rw [hd, Bool.or_false, ← hc]
      · rw [getD_set_ne _ _ _ _ (by omega)]
    refine ⟨⟨?_, ?_, ?_, ?_, ?_, ?_⟩, hcap₁, hle₁, ?_, ?_⟩
    · dsimp only
      rw [List.length_set, hwf₁.1]
    · dsimp only
      rw [List.length_set, List.length_set, hwf₁.2.1]
    · dsimp only
      intro w hw
      rcases List.mem_or_eq_of_mem_set hw with h | h
      · exact hwf₁.2.2.1 w h
      · rw [h]
        exact Nat.or_lt_two_pow (getD_lt_of_all hwf₁.2.2.1 _) (hpow32 _ (by omega))
    · dsimp only
      intro w hw
      rcases List.mem_or_eq_of_mem_set hw with h | h
      · exact hwf₁.2.2.2.1 w h
      · rw [h]
        exact Nat.or_lt_two_pow (getD_lt_of_all hwf₁.2.2.2.1 _) (hpow32 _ (by omega))
    · dsimp only
      intro bi hbi
      rw [List.length_set] at hbi
      by_cases hc1 : bi = k / 32
      · subst hc1
        rw [getD_set_self _ _ _ hbl, getD_set_self _ _ _ htl]
        have hL : ((s₁.top.getD (k / 32 / 32) 0) ||| 2 ^ (k / 32 % 32)).testBit (k / 32 % 32)
            = true := by
          rw [Nat.testBit_lor, Nat.testBit_two_pow]
          simp
        have hR : ((s₁.bottom.getD (k / 32) 0 ||| 2 ^ (k % 32)) != 0) = true := by
          rw [bne_iff_ne]
          apply ne_zero_of_testBit (i := k % 32)
          rw [Nat.testBit_lor, Nat.testBit_two_pow]
          simp
        rw [hL, hR]
      · by_cases hc2 : bi / 32 = k / 32 / 32
        · rw [hc2, getD_set_self _ _ _ htl, Nat.testBit_lor, Nat.testBit_two_pow,
            getD_set_ne _ _ _ _ (by omega)]
          have hd : decide (k / 32 % 32 = bi % 32) = false := decide_eq_false (by omega)
          rw [hd, Bool.or_false, ← hc2]
          exact hwf₁.2.2.2.2.1 bi hbi
        · rw [getD_set_ne _ _ _ _ (by omega), getD_set_ne _ _ _ _ (by omega)]
          exact hwf₁.2.2.2.2.1 bi hbi
    · dsimp only
      intro j hj hjlen
      rw [List.length_set] at hjlen
      rw [hrawj j (by omega)]
      exact hwf₁.2.2.2.2.2 j (by omega) hjlen
    · intro j
      by_cases hj : j = k
      · subst hj
        rw [if_pos rfl]
        show BitSet.has _ j = true
        unfold BitSet.has
        dsimp only
        rw [if_neg (by omega), getD_set_self _ _ _ hbl, Nat.testBit_lor, Nat.testBit_two_pow]
        simp
      · rw [if_neg hj, ← hhas₁ j]
        show BitSet.has _ j = s₁.has j
        unfold BitSet.has
        dsimp only
        by_cases hjc : s₁.capacity ≤ j
        · rw [if_pos hjc, if_pos hjc]
        · rw [if_neg hjc, if_neg hjc, hrawj j hj]
    · dsimp only
      rw [← hhas₁ k, hhas₁k, hcnt₁, if_neg hbit]

theorem testBit_clearbit {w : Nat} (hw : w < 2 ^ 32) (i j : Nat) (_hi : i < 32) :
    (w &&& ((2 ^ 32 - 1) ^^^ 2 ^ i)).testBit j = (w.testBit j && !(decide (i = j))) := by
  by_cases hj : j < 32
  · have h1 : ((2 : Nat) ^ 32 - 1).testBit j = true := by
      rw [Nat.testBit_two_pow_sub_one]
      simpa using hj
    rw [Nat.testBit_land, Nat.testBit_xor, h1, Nat.testBit_two_pow, Bool.true_xor]
  · have h2 : w.testBit j = false :=
      Nat.testBit_lt_two_pow (lt_of_lt_of_le hw (Nat.pow_le_pow_right (by norm_num) (by omega)))
    have h3 : (w &&& ((2 ^ 32 - 1) ^^^ 2 ^ i)).testBit j = false :=
      Nat.testBit_lt_two_pow (lt_of_lt_of_le (lt_of_le_of_lt Nat.and_le_left hw)
        (Nat.pow_le_pow_right (by norm_num) (by omega)))
    rw [h2, h3, Bool.false_and]

theorem bitset_remove_step (s : BitSet) (k : Nat) (hwf : BitSetWF s) :
    BitSetWF (s.remove k).2 ∧
    (s.remove k).2.capacity = s.capacity ∧
    (∀ j, (s.remove k).2.has j = (if j = k then false else s.has j)) ∧
    (s.remove k).2.count = s.count - (if s.has k then 1 else 0) := by
  by_cases hck : s.capacity ≤ k
  · have hr : (s.remove k).2 = s := by
      unfold BitSet.remove
      rw [if_pos hck]
    have hhk : s.has k = false := by
      unfold BitSet.has
      rw [if_pos hck]
    rw [hr]
    refine ⟨hwf, rfl, ?_, ?_⟩
    · intro j
      by_cases hj : j = k
      · subst hj
        rw [if_pos rfl, hhk]
      · rw [if_neg hj]
    · rw [hhk]
      simp
  · have hhk : s.has k = (s.bottom.getD (k / 32) 0).testBit (k % 32) := by
      unfold BitSet.has
      rw [if_neg hck]
    by_cases hbit : (s.bottom.getD (k / 32) 0).testBit (k % 32)
    · -- bit present: actually remove
      have hw32 : s.bottom.getD (k / 32) 0 < 2 ^ 32 := getD_lt_of_all hwf.2.2.1 _
      have htw32 : s.top.getD (k / 32 / 32) 0 < 2 ^ 32 := getD_lt_of_all hwf.2.2.2.1 _
      have hbl : k / 32 < s.bottom.length := by
        rw [hwf.1]; omega
      have htl : k / 32 / 32 < s.top.length := by
        rw [hwf.2.1]
        have := hbl
        omega
      have hr : (s.remove k).2 =
          { bottom := s.bottom.set (k / 32)
              ((s.bottom.getD (k / 32) 0) &&& ((2 ^ 32 - 1) ^^^ 2 ^ (k % 32)))
            top := if (s.bottom.getD (k / 32) 0) &&& ((2 ^ 32 - 1) ^^^ 2 ^ (k % 32)) = 0 then
                s.top.set (k / 32 / 32)
                  ((s.top.getD (k / 32 / 32) 0) &&& ((2 ^ 32 - 1) ^^^ 2 ^ (k / 32 % 32)))
              else s.top
            count := s.count - 1
            capacity := s.capacity } := by
        unfold BitSet.remove
        rw [if_neg hck, if_neg (not_not_intro hbit)]
      have hraw2 : ∀ j, j ≠ k →
          ((s.bottom.set (k / 32)
              ((s.bottom.getD (k / 32) 0) &&& ((2 ^ 32 - 1) ^^^ 2 ^ (k % 32)))).getD
              (j / 32) 0).testBit (j % 32) =
            (s.bottom.getD (j / 32) 0).testBit (j % 32) := by
        intro j hj
        by_cases hc : j / 32 = k / 32
        · rw [hc, getD_set_self _ _ _ hbl, testBit_clearbit hw32 _ _ (by omega)]
          have hd : decide (k % 32 = j % 32) = false := decide_eq_false (by omega)
          rw [hd, Bool.not_false, Bool.and_true, ← hc]
        · rw [getD_set_ne _ _ _ _ (by omega)]
      have hrawk :
          ((s.bottom.set (k / 32)
              ((s.bottom.getD (k / 32) 0) &&& ((2 ^ 32 - 1) ^^^ 2 ^ (k % 32)))).getD
              (k / 32) 0).testBit (k % 32) = false := by
        rw [getD_set_self _ _ _ hbl, testBit_clearbit hw32 _ _ (by omega)]
        simp
      rw [hr]
      have hcnt : s.count - 1 = s.count - (if s.has k then 1 else 0) := by
        rw [hhk, if_pos hbit]
      have hhasgoal : ∀ j, (BitSet.has
          { bottom := s.bottom.set (k / 32)
              ((s.bottom.getD (k / 32) 0) &&& ((2 ^ 32 - 1) ^^^ 2 ^ (k % 32)))
            top := if (s.bottom.getD (k / 32) 0) &&& ((2 ^ 32 - 1) ^^^ 2 ^ (k % 32)) = 0 then
                s.top.set (k / 32 / 32)
                  ((s.top.getD (k / 32 / 32) 0) &&& ((2 ^ 32 - 1) ^^^ 2 ^ (k / 32 % 32)))
              else s.top
            count := s.count - 1
            capacity := s.capacity } j) = (if j = k then false else s.has j) := by
        intro j
        by_cases hj : j = k
        · subst hj
          rw [if_pos rfl]
          unfold BitSet.has
          dsimp only
          rw [if_neg hck, hrawk]
        · rw [if_neg hj]
          unfold BitSet.has
          dsimp only
          by_cases hjc : s.capacity ≤ j
          · rw [if_pos hjc, if_pos hjc]
          · rw [if_neg hjc, if_neg hjc, hraw2 j hj]
      refine ⟨⟨?_, ?_, ?_, ?_, ?_, ?_⟩, rfl, hhasgoal, hcnt.symm ▸ rfl⟩
      · dsimp only
        rw [List.length_set, hwf.1]
      · dsimp only
        rw [List.length_set]
        by_cases hz : (s.bottom.getD (k / 32) 0) &&& ((2 ^ 32 - 1) ^^^ 2 ^ (k % 32)) = 0
        · rw [if_pos hz, List.length_set, hwf.2.1]
        · rw [if_neg hz, hwf.2.1]
      · dsimp only
        intro w hw
        rcases List.mem_or_eq_of_mem_set hw with h | h
        · exact hwf.2.2.1 w h
        · rw [h]
          exact lt_of_le_of_lt (Nat.and_le_left) hw32
      · dsimp only
        intro w hw
        by_cases hz : (s.bottom.getD (k / 32) 0) &&& ((2 ^ 32 - 1) ^^^ 2 ^ (k % 32)) = 0
        · rw [if_pos hz] at hw
          rcases List.mem_or_eq_of_mem_set hw with h | h
          · exact hwf.2.2.2.1 w h
          · rw [h]
            exact lt_of_le_of_lt Nat.and_le_left htw32
        · rw [if_neg hz] at hw
          exact hwf.2.2.2.1 w hw
      · dsimp only
        intro bi hbi
        by_cases hz : (s.bottom.getD (k / 32) 0) &&& ((2 ^ 32 - 1) ^^^ 2 ^ (k % 32)) = 0
        · rw [if_pos hz] at hbi ⊢
          rw [List.length_set] at hbi
          by_cases hc1 : bi = k / 32
          · subst hc1
            rw [getD_set_self _ _ _ hbl, getD_set_self _ _ _ htl, hz,
              testBit_clearbit htw32 _ _ (by omega)]
            simp
          · by_cases hc2 : bi / 32 = k / 32 / 32
            · rw [hc2, getD_set_self _ _ _ htl, testBit_clearbit htw32 _ _ (by omega),
                getD_set_ne _ _ _ _ (by omega)]
              have hd : decide (k / 32 % 32 = bi % 32) = false := decide_eq_false (by omega)
              rw [hd, Bool.not_false, Bool.and_true, ← hc2]
              exact hwf.2.2.2.2.1 bi hbi
            · rw [getD_set_ne _ _ _ _ (by omega), getD_set_ne _ _ _ _ (by omega)]
              exact hwf.2.2.2.2.1 bi hbi
        · rw [if_neg hz] at hbi ⊢
          by_cases hc1 : bi = k / 32
          · subst hc1
            rw [getD_set_self _ _ _ hbl]
            have hwne : s.bottom.getD (k / 32) 0 ≠ 0 := ne_zero_of_testBit hbit
            have hold := hwf.2.2.2.2.1 (k / 32) hbi
            rw [hold]
            have hL : ((s.bottom.getD (k / 32) 0) != 0) = true := by rwa [bne_iff_ne]
            have hR : ((s.bottom.getD (k / 32) 0 &&& ((2 ^ 32 - 1) ^^^ 2 ^ (k % 32))) != 0)
                = true := by rwa [bne_iff_ne]
            rw [hL, hR]
          · rw [getD_set_ne _ _ _ _ (by omega)]
            exact hwf.2.2.2.2.1 bi hbi
      · dsimp only
        intro j hj hjlen
        rw [List.length_set] at hjlen
        rw [hraw2 j (by omega)]
        exact hwf.2.2.2.2.2 j hj hjlen
    · -- bit absent: no-op
      have hr : (s.remove k).2 = s := by
        unfold BitSet.remove
        rw [if_neg hck, if_pos hbit]
      have hhk : s.has k = false := by
        rw [hhk]
        exact Bool.eq_false_iff.mpr hbit
      rw [hr]
      refine ⟨hwf, rfl, ?_, ?_⟩
      · intro j
        by_cases hj : j = k
        · subst hj
          rw [if_pos rfl, hhk]
        · rw [if_neg hj]
      · rw [hhk]
        simp

theorem bitset_clear_step (s : BitSet) (hwf : BitSetWF s) :
    BitSetWF s.clear ∧ (∀ j, s.clear.has j = false) ∧ s.clear.count = 0 := by
  refine ⟨⟨?_, ?_, ?_, ?_, ?_, ?_⟩, ?_, rfl⟩
  · show (List.replicate s.bottom.length 0).length = _
    rw [List.length_replicate]
    exact hwf.1
  · show (List.replicate s.top.length 0).length = (List.replicate s.bottom.length 0).length.add 31 / 32
    rw [List.length_replicate, List.length_replicate]
    exact hwf.2.1
  · intro w hw
    rw [List.eq_of_mem_replicate hw]
    norm_num
  · intro w hw
    rw [List.eq_of_mem_replicate hw]
    norm_num
  · intro bi _
    rw [show s.clear.top = List.replicate s.top.length 0 from rfl,
      show s.clear.bottom = List.replicate s.bottom.length 0 from rfl,
      getD_replicate_zero, getD_replicate_zero, Nat.zero_testBit]
    rfl
  · intro k _ _
    rw [show s.clear.bottom = List.replicate s.bottom.length 0 from rfl,
      getD_replicate_zero, Nat.zero_testBit]
  · intro j
    unfold BitSet.has
    by_cases hj : s.clear.capacity ≤ j
    · rw [if_pos hj]
    · rw [if_neg hj]
      rw [show s.clear.bottom = List.replicate s.bottom.length 0 from rfl,
        getD_replicate_zero, Nat.zero_testBit]

theorem mkBitSet_spec (cap : Nat) :
    BitSetWF (mkBitSet cap) ∧ (∀ j, (mkBitSet cap).has j = false) ∧
    (mkBitSet cap).count = 0 ∧ (mkBitSet cap).capacity = cap := by
  refine ⟨⟨?_, ?_, ?_, ?_, ?_, ?_⟩, ?_, rfl, rfl⟩
  · rw [show (mkBitSet cap).bottom = List.replicate ((cap + 31) / 32) 0 from rfl,
      List.length_replicate]
    rfl
  · rw [show (mkBitSet cap).top = List.replicate (((cap + 31) / 32 + 31) / 32) 0 from rfl,
      show (mkBitSet cap).bottom = List.replicate ((cap + 31) / 32) 0 from rfl,
      List.length_replicate, List.length_replicate]
  · intro w hw
    rw [List.eq_of_mem_replicate hw]
    norm_num
  · intro w hw
    rw [List.eq_of_mem_replicate hw]
    norm_num
  · intro bi _
    rw [show (mkBitSet cap).top = List.replicate (((cap + 31) / 32 + 31) / 32) 0 from rfl,
      show (mkBitSet cap).bottom = List.replicate ((cap + 31) / 32) 0 from rfl,
      getD_replicate_zero, getD_replicate_zero, Nat.zero_testBit]
    rfl
  · intro k _ _
    rw [show (mkBitSet cap).bottom = List.replicate ((cap + 31) / 32) 0 from rfl,
      getD_replicate_zero, Nat.zero_testBit]
  · intro j
    unfold BitSet.has
    by_cases hj : (mkBitSet cap).capacity ≤ j
    · rw [if_pos hj]
    · rw [if_neg hj]
      rw [show (mkBitSet cap).bottom = List.replicate ((cap + 31) / 32) 0 from rfl,
        getD_replicate_zero, Nat.zero_testBit]

theorem bitset_has_lt {s : BitSet} {k : Nat} (h : s.has k = true) : k < s.capacity := by
  by_contra hc
  unfold BitSet.has at h
  rw [if_pos (by omega)] at h
  exact Bool.false_ne_true h

theorem bitset_has_false_of_le {s : BitSet} {k : Nat} (h : s.capacity ≤ k) :
    s.has k = false := by
  unfold BitSet.has
  rw [if_pos h]

theorem finset_filter_range_shrink {p : Nat → Bool} {m n : Nat} (hmn : m ≤ n)
    (h : ∀ j, m ≤ j → p j = false) :
    (Finset.range n).filter (fun j => p j = true) =
      (Finset.range m).filter (fun j => p j = true) := by
  apply Finset.ext
  intro j
  simp only [Finset.mem_filter, Finset.mem_range]
  constructor
  · rintro ⟨h1, h2⟩
    refine ⟨?_, h2⟩
    by_contra hc
    rw [h j (by omega)] at h2
    exact Bool.false_ne_true h2
  · rintro ⟨h1, h2⟩
    exact ⟨by omega, h2⟩

theorem applyOps_spec (ops : List (Bool × Nat)) :
    ∀ s : BitSet, BitSetWF s → 0 < s.capacity →
      BitSetWF (applyOps ops s) ∧ 0 < (applyOps ops s).capacity ∧
      (∀ k, (applyOps ops s).has k =
        (if netFlips k ops (s.has k) % 2 = 1 then !(s.has k) else s.has k)) ∧
      ((s.count = ((Finset.range s.capacity).filter (fun j => s.has j = true)).card) →
        (applyOps ops s).count =
          ((Finset.range (applyOps ops s).capacity).filter
            (fun j => (applyOps ops s).has j = true)).card) := by
  induction ops with
  | nil =>
    intro s hwf hcap
    refine ⟨hwf, hcap, ?_, fun h => h⟩
    intro k
    show s.has k = if netFlips k [] (s.has k) % 2 = 1 then !(s.has k) else s.has k
    rw [show netFlips k [] (s.has k) = 0 from rfl]
    norm_num
  | cons op rest ih =>
    intro s hwf hcap
    obtain ⟨isAdd, opk⟩ := op
    -- the state after the first call
    set s' := if isAdd then (s.add opk).2 else (s.remove opk).2 with hs'
    have happ : applyOps ((isAdd, opk) :: rest) s = applyOps rest s' := by
      show List.foldl _ _ _ = _
      rw [List.foldl_cons, hs']
      by_cases h : isAdd
      · rw [if_pos h]
        rfl
      · rw [if_neg h]
        have : isAdd = false := by
          cases isAdd
          · rfl
          · exact absurd rfl h
        rw [this]
        rfl
    have hstep : BitSetWF s' ∧ 0 < s'.capacity ∧
        (∀ j, s'.has j = (if j = opk then isAdd else s.has j)) ∧
        ((s.count = ((Finset.range s.capacity).filter (fun j => s.has j = true)).card) →
          s'.count = ((Finset.range s'.capacity).filter (fun j => s'.has j = true)).card) := by
      rw [hs']
      cases isAdd with
      | true =>
        rw [if_pos rfl]
        obtain ⟨hw, hc, hle, hhas, hcnt⟩ := bitset_add_step s opk hwf hcap
        refine ⟨hw, hc, hhas, ?_⟩
        intro hinv
        rw [hcnt]
        by_cases hsk : s.has opk = true
        · rw [if_pos hsk, Nat.add_zero, hinv]
          have hpt : ∀ x ∈ Finset.range (s.add opk).2.capacity,
              ((s.add opk).2.has x = true) ↔ (s.has x = true) := by
            intro x _
            rw [hhas x]
            by_cases hx : x = opk
            · subst hx
              rw [if_pos rfl, hsk]
            · rw [if_neg hx]
          rw [Finset.filter_congr hpt,
            finset_filter_range_shrink hle (fun j hj => bitset_has_false_of_le hj)]
        · rw [if_neg hsk, hinv]
          have hsk' : s.has opk = false := Bool.eq_false_iff.mpr hsk
          have hk' : opk < (s.add opk).2.capacity := by
            apply bitset_has_lt
            rw [hhas opk, if_pos rfl]
          have hins : (Finset.range (s.add opk).2.capacity).filter
                (fun j => (s.add opk).2.has j = true) =
              insert opk ((Finset.range s.capacity).filter (fun j => s.has j = true)) := by
            apply Finset.ext
            intro x
            simp only [Finset.mem_insert, Finset.mem_filter, Finset.mem_range]
            constructor
            · rintro ⟨h1, h2⟩
              rw [hhas x] at h2
              by_cases hx : x = opk
              · exact Or.inl hx
              · rw [if_neg hx] at h2
                exact Or.inr ⟨bitset_has_lt h2, h2⟩
            · rintro (rfl | ⟨h1, h2⟩)
              · exact ⟨hk', by rw [hhas x, if_pos rfl]⟩
              · refine ⟨by have := bitset_has_lt h2; omega, ?_⟩
                rw [hhas x]
                by_cases hx : x = opk
                · subst hx
                  rw [hsk'] at h2
                  exact absurd h2 (by simp)
                · rw [if_neg hx]
                  exact h2
          rw [hins, Finset.card_insert_of_not_mem (by
            simp only [Finset.mem_filter, Finset.mem_range, not_and]
            intro _
            rw [hsk']
            simp)]
      | false =>
        rw [if_neg (by simp)]
        obtain ⟨hw, hc, hhas, hcnt⟩ := bitset_remove_step s opk hwf
        refine ⟨hw, by omega, hhas, ?_⟩
        intro hinv
        rw [hcnt]
        by_cases hsk : s.has opk = true
        · rw [if_pos hsk, hinv, hc]
          have hdel : (Finset.range s.capacity).filter
                (fun j => (s.remove opk).2.has j = true) =
              ((Finset.range s.capacity).filter (fun j => s.has j = true)).erase opk := by
            apply Finset.ext
            intro x
            simp only [Finset.mem_erase, Finset.mem_filter, Finset.mem_range]
            constructor
            · rintro ⟨h1, h2⟩
              rw [hhas x] at h2
              by_cases hx : x = opk
              · subst hx
                rw [if_pos rfl] at h2
                exact absurd h2 (by simp)
              · rw [if_neg hx] at h2
                exact ⟨hx, h1, h2⟩
            · rintro ⟨hx, h1, h2⟩
              refine ⟨h1, ?_⟩
              rw [hhas x, if_neg hx]
              exact h2
          rw [hdel, Finset.card_erase_of_mem (by
            simp only [Finset.mem_filter, Finset.mem_range]
            exact ⟨bitset_has_lt hsk, hsk⟩)]
        · have hsk' : s.has opk = false := Bool.eq_false_iff.mpr hsk
          rw [if_neg hsk, hinv, hc, Nat.sub_zero]
          apply congrArg
          apply Finset.filter_congr
          intro x _
          rw [hhas x]
          by_cases hx : x = opk
          · subst hx
            rw [if_pos rfl, hsk']
          · rw [if_neg hx]
    obtain ⟨hwf', hcap', hhas', hcnt'⟩ := hstep
    obtain ⟨hw2, hc2, hhas2, hcnt2⟩ := ih s' hwf' hcap'
    rw [happ]
    refine ⟨hw2, hc2, ?_, fun hinv => hcnt2 (hcnt' hinv)⟩
    intro k
    rw [hhas2 k, hhas' k]
    show (if netFlips k rest (if k = opk then isAdd else s.has k) % 2 = 1
        then !(if k = opk then isAdd else s.has k)
        else (if k = opk then isAdd else s.has k)) =
      (if netFlips k ((isAdd, opk) :: rest) (s.has k) % 2 = 1 then !(s.has k) else s.has k)
    rw [show netFlips k ((isAdd, opk) :: rest) (s.has k) =
        (if opk = k ∧ isAdd ≠ s.has k then 1 + netFlips k rest isAdd
         else netFlips k rest (if opk = k then isAdd else s.has k)) from rfl]
    by_cases hk : k = opk
    · subst hk
      rw [if_pos rfl]
      by_cases hne : isAdd = s.has k
      · have h2 : (if k = k ∧ isAdd ≠ s.has k then 1 + netFlips k rest isAdd
            else netFlips k rest isAdd) = netFlips k rest isAdd := if_neg (by simp [hne])
        rw [h2, hne]
      · have h2 : (if k = k ∧ isAdd ≠ s.has k then 1 + netFlips k rest isAdd
            else netFlips k rest isAdd) = 1 + netFlips k rest isAdd := if_pos ⟨rfl, hne⟩
        rw [h2]
        have hival : isAdd = !(s.has k) := by
          cases hA : isAdd <;> cases hS : s.has k <;> simp_all
        by_cases hpar : netFlips k rest isAdd % 2 = 1
        · have hL : (if netFlips k rest isAdd % 2 = 1 then !isAdd else isAdd) = !isAdd :=
            if_pos hpar
          have hR : (if (1 + netFlips k rest isAdd) % 2 = 1 then !(s.has k) else s.has k)
              = s.has k := if_neg (by omega)
          rw [hL, hR, hival, Bool.not_not]
        · have hL : (if netFlips k rest isAdd % 2 = 1 then !isAdd else isAdd) = isAdd :=
            if_neg hpar
          have hR : (if (1 + netFlips k rest isAdd) % 2 = 1 then !(s.has k) else s.has k)
              = !(s.has k) := if_pos (by omega)
          rw [hL, hR, hival]
    · have h1 : (if k = opk then isAdd else s.has k) = s.has k := if_neg hk
      have h2 : (if opk = k ∧ isAdd ≠ s.has k then 1 + netFlips k rest isAdd
          else netFlips k rest (if opk = k then isAdd else s.has k)) =
          netFlips k rest (if opk = k then isAdd else s.has k) := if_neg (by
            intro h
            exact hk h.1.symm)
      have h3 : (if opk = k then isAdd else s.has k) = s.has k := if_neg (fun h => hk h.symm)
      rw [h1, h2, h3]

/-! ### Claim C8: structural invariant and add/remove sequences -/

/-- C8: `add`, `remove`, `clear` and growth preserve the two-level
structural invariant (top bit set iff bottom word nonzero, plus the array
layout); and for every add/remove sequence on a fresh BitSet, `has k`
equals the net parity of the calls that affected `k`, while `count` equals
the number of keys currently true. -/
theorem bitset_ops_preserve_invariant :
    (∀ (s : BitSet) (k m : Nat), BitSetWF s → 0 < s.capacity →
      BitSetWF (s.add k).2 ∧ BitSetWF (s.remove k).2 ∧ BitSetWF s.clear ∧
      BitSetWF (s.grow m)) ∧
    (∀ (cap : Nat) (ops : List (Bool × Nat)), 0 < cap →
      (∀ k, (applyOps ops (mkBitSet cap)).has k = decide (netFlips k ops false % 2 = 1)) ∧
      (applyOps ops (mkBitSet cap)).count =
        ((Finset.range (applyOps ops (mkBitSet cap)).capacity).filter
          (fun k => (applyOps ops (mkBitSet cap)).has k = true)).card) := by
  constructor
  · intro s k m hwf hcap
    exact ⟨(bitset_add_step s k hwf hcap).1, (bitset_remove_step s k hwf).1,
      (bitset_clear_step s hwf).1, (bitset_grow_preserves s m hwf hcap).1⟩
  · intro cap ops hcap
    obtain ⟨hmwf, hmhas, hmcnt, hmcap⟩ := mkBitSet_spec cap
    obtain ⟨-, -, hhas, hcnt⟩ := applyOps_spec ops (mkBitSet cap) hmwf (by omega)
    constructor
    · intro k
      rw [hhas k, hmhas k]
      by_cases hp : netFlips k ops false % 2 = 1
      · rw [if_pos hp, Bool.not_false]
        exact (decide_eq_true hp).symm
      · rw [if_neg hp]
        exact (decide_eq_false hp).symm
    · apply hcnt
      rw [hmcnt]
      have hempty : (Finset.range (mkBitSet cap).capacity).filter
          (fun j => (mkBitSet cap).has j = true) = ∅ := by
        apply Finset.ext
        intro x
        simp only [Finset.mem_filter, Finset.not_mem_empty, iff_false, not_and]
        intro _
        rw [hmhas x]
        simp
      rw [hempty]
      rfl

/-- Witness for C8: a concrete add/add/remove/add sequence on a fresh
32-capacity set. -/
theorem bitset_ops_preserve_invariant_witness :
    ((applyOps [(true, 3), (true, 4), (false, 3), (true, 3)] (mkBitSet 32)).has 3 =
      decide (netFlips 3 [(true, 3), (true, 4), (false, 3), (true, 3)] false % 2 = 1)) ∧
    (applyOps [(true, 3), (true, 4), (false, 3), (true, 3)] (mkBitSet 32)).count =
      ((Finset.range (applyOps [(true, 3), (true, 4), (false, 3), (true, 3)]
          (mkBitSet 32)).capacity).filter
        (fun k => (applyOps [(true, 3), (true, 4), (false, 3), (true, 3)]
          (mkBitSet 32)).has k = true)).card :=
  ⟨(bitset_ops_preserve_invariant.2 32 [(true, 3), (true, 4), (false, 3), (true, 3)]
      (by norm_num)).1 3,
    (bitset_ops_preserve_invariant.2 32 [(true, 3), (true, 4), (false, 3), (true, 3)]
      (by norm_num)).2⟩

/-! ### Claim C7: growth policy -/

theorem getD_set_self_g {α : Type} (l : List α) (i : Nat) (v d : α) (h : i < l.length) :
    (l.set i v).getD i d = v := by
  induction l generalizing i with
  | nil => simp at h
  | cons a l ih =>
    cases i with
    | zero => rfl
    | succ j => exact ih j (by simpa using h)

/-- C7: every growth operation (BitSet.add growth, QueryEntitySet growth,
ensureEntityMaskSize) triggered by an index at or beyond the current
capacity never shrinks, preserves every stored bit/word at its position,
and produces the smallest repeated doubling of the old capacity that is
`≥ index + 1`. -/
theorem growth_minimal_doubling :
    (∀ (s : BitSet) (key : Nat), BitSetWF s → 0 < s.capacity → s.capacity ≤ key →
      s.capacity ≤ (s.grow (key + 1)).capacity ∧
      key + 1 ≤ (s.grow (key + 1)).capacity ∧
      (∃ n, (s.grow (key + 1)).capacity = s.capacity * 2 ^ n) ∧
      (∀ j, key + 1 ≤ s.capacity * 2 ^ j →
        (s.grow (key + 1)).capacity ≤ s.capacity * 2 ^ j) ∧
      (∀ k, s.has k = true → (s.grow (key + 1)).has k = true)) ∧
    (∀ (q : QueryEntitySet) (eid : Nat), QESWF q → q.capacity ≤ eid →
      q.capacity ≤ (q.grow (eid + 1)).capacity ∧
      eid + 1 ≤ (q.grow (eid + 1)).capacity ∧
      (∃ n, (q.grow (eid + 1)).capacity = q.capacity * 2 ^ n) ∧
      (∀ j, eid + 1 ≤ q.capacity * 2 ^ j →
        (q.grow (eid + 1)).capacity ≤ q.capacity * 2 ^ j) ∧
      (∀ i, (q.grow (eid + 1)).bottom.getD i 0 = q.bottom.getD i 0)) ∧
    (∀ (masks : List (List Nat)) (gid eid : Nat), gid < masks.length →
      0 < (masks.getD gid []).length → (masks.getD gid []).length ≤ eid →
      ((ensureEntityMaskSize masks gid eid).getD gid []).length =
        growCapacity (masks.getD gid []).length (eid + 1) ∧
      (masks.getD gid []).length ≤ ((ensureEntityMaskSize masks gid eid).getD gid []).length ∧
      eid + 1 ≤ ((ensureEntityMaskSize masks gid eid).getD gid []).length ∧
      (∃ n, ((ensureEntityMaskSize masks gid eid).getD gid []).length =
        (masks.getD gid []).length * 2 ^ n) ∧
      (∀ j, eid + 1 ≤ (masks.getD gid []).length * 2 ^ j →
        ((ensureEntityMaskSize masks gid eid).getD gid []).length ≤
          (masks.getD gid []).length * 2 ^ j) ∧
      (∀ i, ((ensureEntityMaskSize masks gid eid).getD gid []).getD i 0 =
        (masks.getD gid []).getD i 0)) := by
  refine ⟨?_, ?_, ?_⟩
  · intro s key hwf hcap hkey
    obtain ⟨-, hc1, hc2, hc3, -, -, -, hhas⟩ := bitset_grow_preserves s (key + 1) hwf hcap
    obtain ⟨⟨n, hn⟩, -, hmin⟩ := growCapacity_spec s.capacity (key + 1) hcap
    refine ⟨hc1, hc3, ⟨n, by rw [hc2, hn]⟩, ?_, fun k hk => by rw [hhas k]; exact hk⟩
    intro j hj
    rw [hc2]
    exact hmin j hj
  · intro q eid hq heid
    have hcap : 0 < q.capacity := hq.2
    have hcap' : (q.grow (eid + 1)).capacity = growCapacity q.capacity (eid + 1) := rfl
    obtain ⟨⟨n, hn⟩, hge, hmin⟩ := growCapacity_spec q.capacity (eid + 1) hcap
    refine ⟨?_, ?_, ⟨n, by rw [hcap', hn]⟩, ?_, ?_⟩
    · rw [hcap']
      exact growCapacity_ge_cap _ _ hcap
    · rw [hcap']
      exact hge
    · intro j hj
      rw [hcap']
      exact hmin j hj
    · intro i
      exact getD_zero_pad q.bottom _ i
  · intro masks gid eid hgid hlen heid
    have hr : ensureEntityMaskSize masks gid eid =
        masks.set gid ((masks.getD gid []) ++
          List.replicate (growCapacity (masks.getD gid []).length (eid + 1) -
            (masks.getD gid []).length) 0) := by
      unfold ensureEntityMaskSize
      rw [if_neg (by omega)]
    have hsel : (ensureEntityMaskSize masks gid eid).getD gid [] =
        (masks.getD gid []) ++
          List.replicate (growCapacity (masks.getD gid []).length (eid + 1) -
            (masks.getD gid []).length) 0 := by
      rw [hr]
      exact getD_set_self_g masks gid _ [] hgid
    obtain ⟨⟨n, hn⟩, hge, hmin⟩ := growCapacity_spec (masks.getD gid []).length (eid + 1) hlen
    have hglen : ((ensureEntityMaskSize masks gid eid).getD gid []).length =
        growCapacity (masks.getD gid []).length (eid + 1) := by
      rw [hsel, List.length_append, List.length_replicate]
      have := growCapacity_ge_cap (masks.getD gid []).length (eid + 1) hlen
      omega
    refine ⟨hglen, ?_, ?_, ⟨n, by rw [hglen, hn]⟩, ?_, ?_⟩
    · rw [hglen]
      exact growCapacity_ge_cap _ _ hlen
    · rw [hglen]
      exact hge
    · intro j hj
      rw [hglen]
      exact hmin j hj
    · intro i
      rw [hsel]
      exact getD_zero_pad _ _ i

/-- Witness for C7 at concrete growth triggers. -/
theorem growth_minimal_doubling_witness :
    1500 + 1 ≤ ((mkBitSet 1024).grow (1500 + 1)).capacity ∧
    8 + 1 ≤ ((mkQES 8).grow (8 + 1)).capacity ∧
    ((ensureEntityMaskSize [[7, 9]] 0 5).getD 0 []).length = growCapacity 2 6 :=
  ⟨(growth_minimal_doubling.1 (mkBitSet 1024) 1500 (by decide) (by decide) (by decide)).2.1,
    (growth_minimal_doubling.2.1 (mkQES 8) 8 (by decide) (by decide)).2.1,
    (growth_minimal_doubling.2.2 [[7, 9]] 0 5 (by decide) (by decide) (by decide)).1⟩

/-! ### Claim C10: out-of-range keys are read-only no-ops -/

/-- C10: a key at or beyond capacity makes `BitSet.has` false and
`BitSet.remove` a `(false, unchanged)` no-op, and an entity whose id is at
or beyond the set's capacity makes `QueryEntitySet.has` false and
`QueryEntitySet.remove` a no-op — none of them grow or modify state. -/
theorem out_of_range_reads_are_noops :
    (∀ (s : BitSet) (key : Nat), s.capacity ≤ key →
      s.has key = false ∧ s.remove key = (false, s)) ∧
    (∀ (q : QueryEntitySet) (entity : Nat), q.capacity ≤ getEntityId entity →
      q.has entity = false ∧ q.remove entity = q) := by
  constructor
  · intro s key hk
    constructor
    · unfold BitSet.has
      rw [if_pos hk]
    · unfold BitSet.remove
      rw [if_pos hk]
  · intro q e hk
    constructor
    · unfold QueryEntitySet.has
      rw [if_pos hk]
    · unfold QueryEntitySet.remove
      rw [if_pos hk]

/-- Witness for C10 at a 16-capacity BitSet and QueryEntitySet with key 999. -/
theorem out_of_range_reads_are_noops_witness :
    (mkBitSet 16).has 999 = false ∧ (mkBitSet 16).remove 999 = (false, mkBitSet 16) ∧
    (mkQES 16).has 999 = false ∧ (mkQES 16).remove 999 = mkQES 16 :=
  ⟨(out_of_range_reads_are_noops.1 (mkBitSet 16) 999 (by decide)).1,
    (out_of_range_reads_are_noops.1 (mkBitSet 16) 999 (by decide)).2,
    (out_of_range_reads_are_noops.2 (mkQES 16) 999 (by decide)).1,
    (out_of_range_reads_are_noops.2 (mkQES 16) 999 (by decide)).2⟩

/-! ### Claim C3: QueryEntitySet add/remove round trip -/

/-- Counterexample to C3 as stated: for a state that already contains the
handle, `add` is a no-op and `remove` deletes the pre-existing entry, so
`size` drops below its pre-add value instead of returning to it. -/
theorem qes_add_remove_size_counterexample :
    ¬ (((((mkQES 1024).add 5).add 5).remove 5).size = ((mkQES 1024).add 5).size ∧
      ((((mkQES 1024).add 5).add 5).remove 5).has 5 = false) := by
  intro h
  have := h.1
  revert this
  decide

/-- C3 amended: when the membership bit at the handle's slot is initially
clear, `add(e)` then `remove(e)` leaves `has(e)` false with `size` back at
its pre-add value; and `add` of a handle whose slot is occupied by a
different (recycled-generation) handle overwrites the dense entry in place,
leaving `size`, the bit words and the sparse map unchanged. -/
theorem qes_add_remove_roundtrip :
    (∀ (q : QueryEntitySet) (e : Nat), QESWF q →
      (q.bottom.getD (getEntityId e / 32) 0).testBit (getEntityId e % 32) = false →
      ((q.add e).remove e).has e = false ∧ ((q.add e).remove e).size = q.size) ∧
    (∀ (q : QueryEntitySet) (e eOld i : Nat),
      getEntityId e < q.capacity →
      (q.bottom.getD (getEntityId e / 32) 0).testBit (getEntityId e % 32) = true →
      q.sparse (getEntityId e) = some i → q.dense (some i) = some eOld → eOld ≠ e →
      (q.add e).size = q.size ∧ (q.add e).bottom = q.bottom ∧
      (q.add e).sparse = q.sparse ∧ (q.add e).dense (some i) = some e) := by
  constructor
  · intro q e hq hbit
    set eid := getEntityId e with heid
    set s₁ := if q.capacity ≤ eid then q.grow (eid + 1) else q with hs₁
    have hpack : s₁.bottom.length = (s₁.capacity + 31) / 32 ∧ eid < s₁.capacity ∧
        s₁.cursor = q.cursor ∧ s₁.dense = q.dense ∧ s₁.sparse = q.sparse ∧
        (s₁.bottom.getD (eid / 32) 0).testBit (eid % 32) = false := by
      rw [hs₁]
      by_cases h : q.capacity ≤ eid
      · rw [if_pos h]
        have hcap := hq.2
        have hge := growCapacity_ge_cap q.capacity (eid + 1) hcap
        have hmin := growCapacity_ge_min q.capacity (eid + 1) hcap
        refine ⟨?_, by show eid < growCapacity q.capacity (eid + 1); omega,
          rfl, rfl, rfl, ?_⟩
        · show (q.bottom ++ List.replicate _ 0).length =
            (growCapacity q.capacity (eid + 1) + 31) / 32
          rw [List.length_append, List.length_replicate, hq.1]
          have hd : (q.capacity + 31) / 32 ≤ (growCapacity q.capacity (eid + 1) + 31) / 32 :=
            Nat.div_le_div_right (by omega)
          omega
        · show ((q.bottom ++ List.replicate _ 0).getD (eid / 32) 0).testBit (eid % 32) = false
          rw [getD_zero_pad]
          exact hbit
      · rw [if_neg h]
        exact ⟨hq.1, by omega, rfl, rfl, rfl, hbit⟩
    obtain ⟨hlen₁, heidcap, hcur₁, hdense₁, hsparse₁, hbit₁⟩ := hpack
    have hwl : eid / 32 < s₁.bottom.length := by
      rw [hlen₁]
      omega
    have hadd : q.add e =
        { bottom := s₁.bottom.set (eid / 32) ((s₁.bottom.getD (eid / 32) 0) ||| 2 ^ (eid % 32))
          capacity := s₁.capacity
          dense := fun i => if i = some s₁.cursor then some e else s₁.dense i
          sparse := fun j => if j = eid then some s₁.cursor else s₁.sparse j
          cursor := s₁.cursor + 1 } := by
      show QueryEntitySet.add q e = _
      unfold QueryEntitySet.add
      dsimp only
      rw [← heid, ← hs₁, if_neg (by rw [hbit₁]; exact Bool.false_ne_true)]
    have haddbot : (q.add e).bottom.getD (eid / 32) 0 =
        (s₁.bottom.getD (eid / 32) 0) ||| 2 ^ (eid % 32) := by
      rw [hadd]
      exact getD_set_self _ _ _ hwl
    have haddbit : ((q.add e).bottom.getD (eid / 32) 0).testBit (eid % 32) = true := by
      rw [haddbot, Nat.testBit_lor, Nat.testBit_two_pow]
      simp
    have hremove : (q.add e).remove e =
        { bottom := (q.add e).bottom.set (eid / 32)
            (((q.add e).bottom.getD (eid / 32) 0) &&& ((2 ^ 32 - 1) ^^^ 2 ^ (eid % 32)))
          capacity := (q.add e).capacity
          dense := (q.add e).dense
          sparse := (q.add e).sparse
          cursor := s₁.cursor } := by
      show QueryEntitySet.remove (q.add e) e = _
      unfold QueryEntitySet.remove
      dsimp only
      rw [← heid]
      rw [if_neg (by rw [hadd]; show ¬ s₁.capacity ≤ eid; omega)]
      rw [if_neg (not_not_intro haddbit)]
      have hd : (q.add e).dense ((q.add e).sparse eid) = some e := by
        rw [hadd]
        show (fun i => if i = some s₁.cursor then some e else s₁.dense i)
          ((fun j => if j = eid then some s₁.cursor else s₁.sparse j) eid) = some e
        simp
      rw [if_neg (not_not_intro hd)]
      have hcur : (q.add e).cursor = s₁.cursor + 1 := by rw [hadd]
      have hidx : (q.add e).sparse eid = some ((q.add e).cursor - 1) := by
        rw [hadd]
        show (fun j => if j = eid then some s₁.cursor else s₁.sparse j) eid = _
        simp
      rw [if_pos hidx]
      rw [hcur]
      rfl
    refine ⟨?_, ?_⟩
    · unfold QueryEntitySet.has
      rw [← heid]
      have hcap2 : ((q.add e).remove e).capacity = s₁.capacity := by
        rw [hremove, hadd]
      have hbitfinal : (((q.add e).remove e).bottom.getD (eid / 32) 0).testBit (eid % 32)
          = false := by
        rw [hremove]
        have hwl2 : eid / 32 < (q.add e).bottom.length := by
          rw [hadd]
          show eid / 32 < (s₁.bottom.set _ _).length
          rw [List.length_set]
          exact hwl
        show ((((q.add e).bottom.set (eid / 32) _)).getD (eid / 32) 0).testBit (eid % 32) = false
        rw [getD_set_self _ _ _ hwl2, Nat.testBit_land, Nat.testBit_xor,
          Nat.testBit_two_pow_sub_one, Nat.testBit_two_pow]
        have hm : eid % 32 < 32 := Nat.mod_lt _ (by norm_num)
        simp [hm]
      rw [if_neg (by rw [hcap2]; omega), if_pos hbitfinal]
    · show ((q.add e).remove e).cursor = q.cursor
      rw [hremove, ← hcur₁]
  · intro q e eOld i hcap hbit hsp hde hne
    have hadd : q.add e =
        { q with dense := fun k => if k = q.sparse (getEntityId e) then some e else q.dense k } := by
      show QueryEntitySet.add q e = _
      unfold QueryEntitySet.add
      dsimp only
      have h0 : (if q.capacity ≤ getEntityId e then q.grow (getEntityId e + 1) else q) = q :=
        if_neg (by omega)
      rw [h0, if_pos hbit, if_neg (by
        rw [hsp, hde]
        intro h
        exact hne (by injection h))]
    refine ⟨?_, ?_, ?_, ?_⟩
    · rw [hadd]
      rfl
    · rw [hadd]
    · rw [hadd]
    · rw [hadd]
      show (fun k => if k = q.sparse (getEntityId e) then some e else q.dense k) (some i) = some e
      rw [hsp]
      simp

/-- Witness for C3's amended statement: a fresh-slot round trip and a
stale overwrite by a handle with the same 20-bit id but a different
generation (ids 7 and 5; 1048581 = 5 + 2^20). -/
theorem qes_add_remove_roundtrip_witness :
    ((((mkQES 1024).add 7).remove 7).has 7 = false ∧
      (((mkQES 1024).add 7).remove 7).size = (mkQES 1024).size) ∧
    (((mkQES 1024).add 5).add 1048581).dense (some 0) = some 1048581 :=
  ⟨qes_add_remove_roundtrip.1 (mkQES 1024) 7 (by decide) (by decide),
    (qes_add_remove_roundtrip.2 ((mkQES 1024).add 5) 1048581 5 0 (by decide) (by decide)
      (by decide) (by decide) (by decide)).2.2.2⟩

/-! ### Claims C1 and C2: checkQuery -/

theorem ifchain_eq_decide (bm : StaticBitmask) (m : Nat) :
    (if bm.forbidden ≠ 0 ∧ m &&& bm.forbidden ≠ 0 then some false
     else if bm.required ≠ 0 ∧ m &&& bm.required ≠ bm.required then some false
     else if bm.or ≠ 0 ∧ m &&& bm.or = 0 then some false
     else some true) = some (decide (passesBitmask bm m)) := by
  by_cases h1 : bm.forbidden ≠ 0 ∧ m &&& bm.forbidden ≠ 0
  · rw [if_pos h1]
    have hnp : ¬ passesBitmask bm m := fun hp => h1.2 hp.1
    rw [decide_eq_false hnp]
  · rw [if_neg h1]
    have hf : m &&& bm.forbidden = 0 := by
      by_cases hz : bm.forbidden = 0
      · rw [hz, Nat.and_zero]
      · by_contra hnz
        exact h1 ⟨hz, hnz⟩
    by_cases h2 : bm.required ≠ 0 ∧ m &&& bm.required ≠ bm.required
    · rw [if_pos h2]
      have hnp : ¬ passesBitmask bm m := fun hp => h2.2 hp.2.1
      rw [decide_eq_false hnp]
    · rw [if_neg h2]
      have hr : m &&& bm.required = bm.required := by
        by_cases hz : bm.required = 0
        · rw [hz, Nat.and_zero]
        · by_contra hnr
          exact h2 ⟨hz, hnr⟩
      by_cases h3 : bm.or ≠ 0 ∧ m &&& bm.or = 0
      · rw [if_pos h3]
        have hnp : ¬ passesBitmask bm m := by
          intro hp
          rcases hp.2.2 with hz | hnz
          · exact h3.1 hz
          · exact hnz h3.2
        rw [decide_eq_false hnp]
      · rw [if_neg h3]
        have ho : bm.or = 0 ∨ m &&& bm.or ≠ 0 := by
          by_cases hz : bm.or = 0
          · exact Or.inl hz
          · right
            intro hzz
            exact h3 ⟨hz, hzz⟩
        rw [decide_eq_true (show passesBitmask bm m from ⟨hf, hr, ho⟩)]

/-- C2: a single-bank query matches exactly when the entity's mask word for
that bank (absent or ungrown rows read as zero) has no forbidden bit, all
required bits and — when the `or` mask is non-empty — an `or` bit; a query
touching zero traits matches nothing; and the spec's concrete example with
required = bits{0,1}, forbidden = bit{2} accepts mask 0b011, rejects 0b111. -/
theorem checkQuery_single_bank :
    (∀ (entityMasks : List (List Nat)) (q : QueryInstance) (entity : Nat) (bm : StaticBitmask),
      q.generations.length = 1 → q.traitInstancesAllLen ≠ 0 →
      q.staticBitmasks.getD 0 none = some bm →
      checkQuery entityMasks q entity =
        some (decide (passesBitmask bm
          (maskWord entityMasks (q.generations.getD 0 0) (getEntityId entity))))) ∧
    (∀ (entityMasks : List (List Nat)) (q : QueryInstance) (entity : Nat),
      q.traitInstancesAllLen = 0 → checkQuery entityMasks q entity = some false) ∧
    (checkQuery [[3]] ⟨[some ⟨3, 4, 0⟩], [0], 2⟩ 0 = some true ∧
      checkQuery [[7]] ⟨[some ⟨3, 4, 0⟩], [0], 2⟩ 0 = some false) := by
  refine ⟨?_, ?_, by decide, by decide⟩
  · intro entityMasks q entity bm hgen htr hbm
    unfold checkQuery
    dsimp only
    rw [if_neg htr, if_pos hgen, hbm]
    exact ifchain_eq_decide bm _
  · intro entityMasks q entity htr
    unfold checkQuery
    dsimp only
    rw [if_pos htr]

/-- Witness for C2 at the spec's example query (required bits {0,1},
forbidden bit {2}) and entity mask 0b011. -/
theorem checkQuery_single_bank_witness :
    checkQuery [[3]] ⟨[some ⟨3, 4, 0⟩], [0], 2⟩ 0 =
      some (decide (passesBitmask ⟨3, 4, 0⟩
        (maskWord [[3]] ((⟨[some ⟨3, 4, 0⟩], [0], 2⟩ : QueryInstance).generations.getD 0 0)
          (getEntityId 0)))) :=
  checkQuery_single_bank.1 [[3]] ⟨[some ⟨3, 4, 0⟩], [0], 2⟩ 0 ⟨3, 4, 0⟩
    (by decide) (by decide) (by decide)

theorem checkQueryLoop_true_iff (entityMasks : List (List Nat)) (q : QueryInstance)
    (eid : Nat) :
    ∀ idx : List Nat,
      (checkQueryLoop entityMasks q eid idx = true ↔
        ∀ i ∈ idx, ∀ bm, q.staticBitmasks.getD i none = some bm →
          bitmaskNonempty bm ∧
          passesBitmask bm (maskWord entityMasks (q.generations.getD i 0) eid)) := by
  intro idx
  induction idx with
  | nil => simp [checkQueryLoop]
  | cons i rest ih =>
    show (match q.staticBitmasks.getD i none with
      | none => checkQueryLoop entityMasks q eid rest
      | some bm =>
        if bm.forbidden = 0 ∧ bm.required = 0 ∧ bm.or = 0 then false
        else if bm.forbidden ≠ 0 ∧
            (maskWord entityMasks (q.generations.getD i 0) eid) &&& bm.forbidden ≠ 0 then false
        else if bm.required ≠ 0 ∧
            (maskWord entityMasks (q.generations.getD i 0) eid) &&& bm.required ≠ bm.required
          then false
        else if bm.or ≠ 0 ∧
            (maskWord entityMasks (q.generations.getD i 0) eid) &&& bm.or = 0 then false
        else checkQueryLoop entityMasks q eid rest) = true ↔ _
    rw [List.forall_mem_cons]
    cases hbm : q.staticBitmasks.getD i none with
    | none =>
      dsimp only
      constructor
      · intro h
        refine ⟨?_, (ih.mp h)⟩
        intro bm hbm'
        exact absurd hbm' (by simp)
      · intro h
        exact ih.mpr h.2
    | some bm =>
      dsimp only
      set m := maskWord entityMasks (q.generations.getD i 0) eid with hm
      by_cases hempty : bm.forbidden = 0 ∧ bm.required = 0 ∧ bm.or = 0
      · rw [if_pos hempty]
        constructor
        · intro h
          exact absurd h (by simp)
        · intro h
          exact absurd hempty ((h.1 bm rfl).1)
      · rw [if_neg hempty]
        by_cases h1 : bm.forbidden ≠ 0 ∧ m &&& bm.forbidden ≠ 0
        · rw [if_pos h1]
          constructor
          · intro h
            exact absurd h (by simp)
          · intro h
            exact absurd (h.1 bm rfl).2.1 h1.2
        · rw [if_neg h1]
          have hf : m &&& bm.forbidden = 0 := by
            by_cases hz : bm.forbidden = 0
            · rw [hz, Nat.and_zero]
            · by_contra hnz
              exact h1 ⟨hz, hnz⟩
          by_cases h2 : bm.required ≠ 0 ∧ m &&& bm.required ≠ bm.required
          · rw [if_pos h2]
            constructor
            · intro h
              exact absurd h (by simp)
            · intro h
              exact absurd (h.1 bm rfl).2.2.1 h2.2
          · rw [if_neg h2]
            have hr : m &&& bm.required = bm.required := by
              by_cases hz : bm.required = 0
              · rw [hz, Nat.and_zero]
              · by_contra hnr
                exact h2 ⟨hz, hnr⟩
            by_cases h3 : bm.or ≠ 0 ∧ m &&& bm.or = 0
            · rw [if_pos h3]
              constructor
              · intro h
                exact absurd h (by simp)
              · intro h
                rcases (h.1 bm rfl).2.2.2 with hz | hnz
                · exact absurd hz h3.1
                · exact absurd h3.2 hnz
            · rw [if_neg h3]
              have ho : bm.or = 0 ∨ m &&& bm.or ≠ 0 := by
                by_cases hz : bm.or = 0
                · exact Or.inl hz
                · right
                  intro hzz
                  exact h3 ⟨hz, hzz⟩
              rw [ih]
              constructor
              · intro h
                refine ⟨?_, h⟩
                intro bm' hbm'
                injection hbm' with heq
                subst heq
                exact ⟨hempty, hf, hr, ho⟩
              · intro h
                exact h.2

/-- C1: a multi-bank query matches exactly when every touched bank either
has no encoded triple (the `!bitmask` skip) or has a non-empty triple that
the entity's mask word passes; in particular a bank with no encoded triple
never causes rejection, while a present all-zero triple rejects every
entity (reflected by the non-emptiness requirement). -/
theorem checkQuery_multi_bank (entityMasks : List (List Nat)) (q : QueryInstance)
    (entity : Nat) (htr : q.traitInstancesAllLen ≠ 0) (hgen : 1 < q.generations.length) :
    checkQuery entityMasks q entity = some true ↔
      ∀ i < q.generations.length, ∀ bm, q.staticBitmasks.getD i none = some bm →
        bitmaskNonempty bm ∧
        passesBitmask bm (maskWord entityMasks (q.generations.getD i 0) (getEntityId entity)) := by
  unfold checkQuery
  dsimp only
  rw [if_neg htr, if_neg (by omega : ¬ q.generations.length = 1)]
  rw [show (some (checkQueryLoop entityMasks q (getEntityId entity)
      (List.range q.generations.length)) = some true) ↔
    (checkQueryLoop entityMasks q (getEntityId entity)
      (List.range q.generations.length) = true) from by
      constructor
      · intro h
        injection h
      · intro h
        rw [h]]
  rw [checkQueryLoop_true_iff]
  constructor
  · intro h i hi bm hbm
    exact h i (List.mem_range.mpr hi) bm hbm
  · intro h i hi bm hbm
    exact h i (List.mem_range.mp hi) bm hbm

/-- Witness for C1 at a two-bank query: bank 0 requires bit 0, bank 1 has
no encoded triple and is skipped. -/
theorem checkQuery_multi_bank_witness :
    checkQuery [[1], [0]] ⟨[some ⟨1, 0, 0⟩, none], [0, 1], 2⟩ 0 = some true :=
  (checkQuery_multi_bank [[1], [0]] ⟨[some ⟨1, 0, 0⟩, none], [0, 1], 2⟩ 0
    (by decide) (by decide)).mpr (by decide)

/-- C5: under the `source` auto-destroy policy, with entity B related to
entity A by the relation (edge (B, A)), destroying A cascades: B is
enqueued as a source and processed to terminal release (B leaves the alive
list and appears in the processed set), while destroying B alone never
destroys A: A stays alive and is never enqueued or processed. -/
theorem destroy_cascade_source_policy
    (alive : List Nat) (A B : Nat) (hA : A ∈ alive) (hB : B ∈ alive)
    (hne : A ≠ B) :
    (∃ wA pA,
        destroyEntity ⟨alive, [(B, A)], AutoDestroy.source⟩ A 3 =
          Except.ok (wA, pA) ∧ B ∉ wA.alive ∧ B ∈ pA ∧ A ∉ wA.alive) ∧
      (∃ wB pB,
        destroyEntity ⟨alive, [(B, A)], AutoDestroy.source⟩ B 3 =
          Except.ok (wB, pB) ∧ A ∈ wB.alive ∧ A ∉ pB) := by
  have hBA : (B == A) = false := beq_eq_false_iff_ne.mpr (Ne.symm hne)
  have hAB : (A == B) = false := beq_eq_false_iff_ne.mpr hne
  constructor
  · refine ⟨⟨(alive.filter (fun e => e != A)).filter (fun e => e != B), [],
      AutoDestroy.source⟩, [B, A], ?_, ?_, ?_, ?_⟩
    · unfold destroyEntity
      rw [if_pos hA]
      have e1 : destroyLoop AutoDestroy.source 3 alive [(B, A)] [A] []
          = some (⟨(alive.filter (fun e => e != A)).filter (fun e => e != B), [],
              AutoDestroy.source⟩, [B, A]) := by
        simp [destroyLoop, sourcesOf, unlinkEdge, releaseEntity, hB,
          Ne.symm hne, List.filter_filter]
      rw [e1]
    · intro hmem
      rw [List.mem_filter] at hmem
      simp at hmem
    · simp
    · intro hmem
      rw [List.mem_filter, List.mem_filter] at hmem
      simp at hmem
  · refine ⟨⟨alive.filter (fun e => e != B), [(B, A)], AutoDestroy.source⟩,
      [B], ?_, ?_, ?_⟩
    · unfold destroyEntity
      rw [if_pos hB]
      have e1 : destroyLoop AutoDestroy.source 3 alive [(B, A)] [B] []
          = some (⟨alive.filter (fun e => e != B), [(B, A)],
              AutoDestroy.source⟩, [B]) := by
        simp [destroyLoop, sourcesOf, releaseEntity, hAB]
      rw [e1]
    · exact List.mem_filter.mpr ⟨hA, by simp [hne]⟩
    · simp [hne]

/-- C5 witness: the cascade scenario at the concrete world with alive
handles 7 (the target A) and 9 (the source B) and the single edge
(9, 7). -/
theorem destroy_cascade_source_policy_witness :
    (7 : Nat) ∈ [7, 9] ∧ (9 : Nat) ∈ [7, 9] ∧ (7 : Nat) ≠ 9 ∧
      ((∃ wA pA,
          destroyEntity ⟨[7, 9], [(9, 7)], AutoDestroy.source⟩ 7 3 =
            Except.ok (wA, pA) ∧ 9 ∉ wA.alive ∧ 9 ∈ pA ∧ 7 ∉ wA.alive) ∧
        (∃ wB pB,
          destroyEntity ⟨[7, 9], [(9, 7)], AutoDestroy.source⟩ 9 3 =
            Except.ok (wB, pB) ∧ 7 ∈ wB.alive ∧ 7 ∉ pB)) :=
  ⟨by decide, by decide, by decide,
    destroy_cascade_source_policy [7, 9] 7 9 (by decide) (by decide) (by decide)⟩

/-- C6: invoking the destroy orchestrator on a handle that does not exist
returns the explicit error `Koota: The entity being destroyed does not
exist.` to the caller and never succeeds silently: no `ok` result (and
hence no destruction work) is possible for such a handle, for every
world and every fuel. -/
theorem destroy_nonexistent_errors (w : DestroyWorld) (e fuel : Nat)
    (h : e ∉ w.alive) :
    destroyEntity w e fuel =
        Except.error "Koota: The entity being destroyed does not exist." ∧
      ∀ r, destroyEntity w e fuel ≠ Except.ok r := by
  have heq : destroyEntity w e fuel =
      Except.error "Koota: The entity being destroyed does not exist." := by
    unfold destroyEntity
    rw [if_neg h]
  exact ⟨heq, fun r hok => by rw [heq] at hok; exact Except.noConfusion hok⟩

/-- C6 witness: destroying the absent handle 5 in a world whose alive
handles are 1 and 2 yields the explicit error. -/
theorem destroy_nonexistent_errors_witness :
    (5 : Nat) ∉ (⟨[1, 2], [], AutoDestroy.nothing⟩ : DestroyWorld).alive ∧
      (destroyEntity ⟨[1, 2], [], AutoDestroy.nothing⟩ 5 10 =
          Except.error "Koota: The entity being destroyed does not exist." ∧
        ∀ r, destroyEntity ⟨[1, 2], [], AutoDestroy.nothing⟩ 5 10 ≠ Except.ok r) :=
  ⟨by decide, destroy_nonexistent_errors ⟨[1, 2], [], AutoDestroy.nothing⟩ 5 10 (by decide)⟩
